import Mathlib

/-!
Verification of the UN Budget Explorer layout engine.

This file gives a shallow embedding, over exact rational arithmetic, of the
core layout computations of the repository:

* the recursive rectangle partitioner `squarify` / `slice` of
  `src/components/BudgetTreemap.tsx` (desktop binary-split variant);
* the mobile variant of `squarify` / `slice` with the row-packing branch
  (unnamed source file, mobile `BudgetTreemap`);
* the aggregator building the Part → Section → Entity tree from the flat
  row list (the `parts` useMemo of the `Home` page component);
* the lollipop row builder and tick generator of
  `src/components/BudgetLollipop.tsx`.

JavaScript `number` values are modelled as `ℚ` (the spec states the layout
properties exactly under rational arithmetic).  JavaScript `Map`s are
modelled as association lists with insertion-order semantics (`Map.set` on a
fresh key appends; on an existing key it updates in place).  Nullable/
optional string fields are modelled as `Option String`, with the JavaScript
`||` operator's treatment of the empty string made explicit.
-/

namespace UNBudget

variable {T : Type}

/-! ### The mobile variant of `squarify` / `slice`

The unnamed mobile `BudgetTreemap` source file duplicates `squarify` and
`slice` with an extra `forceMobileLayout` flag: when the flag is set and at
least 3 items are present, it first tries to pack the items into rows of
2–4 (based on the `uniformity` ratio of least to greatest normalized
value); if more than one row results those rows are laid out directly,
otherwise it falls back to the binary split, stacking vertically in mobile
mode and otherwise choosing the cut orientation by the aspect ratio
threshold `width / height > 0.7`. -/

/-- An input item for `squarify`: `{ value: number; data: T }`. -/
structure SItem (T : Type) where
  value : ℚ
  data : T
  deriving Repr, DecidableEq

/-- A normalized item as built inside `squarify`:
`{ ...item, normalizedValue: (item.value / total) * width * height }`. -/
structure NItem (T : Type) where
  value : ℚ
  data : T
  normalizedValue : ℚ
  deriving Repr, DecidableEq

/-- A returned rectangle `Rect & { data: T }`. -/
structure DataRect (T : Type) where
  x : ℚ
  y : ℚ
  width : ℚ
  height : ℚ
  data : T
  deriving Repr, DecidableEq

/-- Sum of the `normalizedValue` fields of a list of items (the
`items.reduce((sum, item) => sum + item.normalizedValue, 0)` expression). -/
def nvSum (items : List (NItem T)) : ℚ :=
  (items.map (·.normalizedValue)).sum

/-- The `for` loop of `slice` that finds the break position: starting from
accumulator `acc`, scan the values; on the first value whose running sum
reaches `half`, return `some` of the (1-based) break position.  `none` means
the loop ran to the end without triggering the break (in the source the
variable `splitIndex` then keeps its initial value `0`). -/
def splitScan (half : ℚ) : ℚ → List ℚ → Option Nat
  | _, [] => none
  | acc, v :: rest =>
    if half ≤ acc + v then some 1
    else (splitScan half (acc + v) rest).map (· + 1)

/-- `splitIndex` as computed in `slice`: the loop result (or `0` if the loop
never broke), clamped by `Math.max(1, Math.min(splitIndex, items.length - 1))`. -/
def splitIndex (items : List (NItem T)) (total : ℚ) : Nat :=
  max 1 (min ((splitScan (total / 2) 0 (items.map (·.normalizedValue))).getD 0)
    (items.length - 1))

/-- `slice` from `src/components/BudgetTreemap.tsx` (desktop variant).
Splits the item list at `splitIndex` and recurses, cutting along the longer
axis (`width >= height` ⇒ vertical cut at `leftWidth`, else horizontal cut
at `leftHeight`). -/
def slice : List (NItem T) → ℚ → ℚ → ℚ → ℚ → List (DataRect T)
  | [], _, _, _, _ => []
  | [it], x, y, w, h => [⟨x, y, w, h, it.data⟩]
  | it₀ :: it₁ :: rest, x, y, w, h =>
    let items := it₀ :: it₁ :: rest
    let total := nvSum items
    let si := splitIndex items total
    let leftItems := items.take si
    let rightItems := items.drop si
    let leftSum := nvSum leftItems
    if h ≤ w then
      let lw := w * (leftSum / total)
      slice leftItems x y lw h ++ slice rightItems (x + lw) y (w - lw) h
    else
      let lh := h * (leftSum / total)
      slice leftItems x y w lh ++ slice rightItems x (y + lh) w (h - lh)
termination_by items => items.length
decreasing_by
  all_goals
    have h1 : 1 ≤ splitIndex (it₀ :: it₁ :: rest) (nvSum (it₀ :: it₁ :: rest)) :=
      le_max_left _ _
    have h2 : splitIndex (it₀ :: it₁ :: rest) (nvSum (it₀ :: it₁ :: rest)) ≤
        (it₀ :: it₁ :: rest).length - 1 :=
      max_le (by simp only [List.length_cons]; omega) (min_le_right _ _)
    simp only [List.length_take, List.length_drop, List.length_cons] at *
    omega

/-- `squarify` from `src/components/BudgetTreemap.tsx` (desktop variant):
normalizes the values to areas and calls `slice`; returns `[]` when the
value total is `0` or the list is empty. -/
def squarify (items : List (SItem T)) (x y width height : ℚ) :
    List (DataRect T) :=
  let total := (items.map (·.value)).sum
  if total = 0 ∨ items.length = 0 then []
  else
    let normalized := items.map fun it =>
      NItem.mk it.value it.data ((it.value / total) * width * height)
    slice normalized x y width height

/-- The area of a returned rectangle. -/
def rectArea (r : DataRect T) : ℚ := r.width * r.height

/-- The property asserted of every rectangle by the safety claim: strictly
positive extent, lying inside the box `(x, y, w, h)`. -/
def InBox (x y w h : ℚ) (r : DataRect T) : Prop :=
  0 < r.width ∧ 0 < r.height ∧ x ≤ r.x ∧ y ≤ r.y ∧
    r.x + r.width ≤ x + w ∧ r.y + r.height ≤ y + h

instance (x y w h : ℚ) (r : DataRect T) : Decidable (InBox x y w h r) := by
  unfold InBox; infer_instance

/-- `Math.max(...)` over a list of rationals (only applied to non-empty
lists by the source). -/
def qmax : List ℚ → ℚ
  | [] => 0
  | a :: rest => rest.foldl max a

/-- `Math.min(...)` over a list of rationals (only applied to non-empty
lists by the source). -/
def qmin : List ℚ → ℚ
  | [] => 0
  | a :: rest => rest.foldl min a

/-- The row-accumulation loop of the mobile `slice`: `cur` is `currentRow`,
`curSum` is `currentRowSum`; a row is closed when it reaches `bestRowSize`
items, when the input is exhausted, or when it already holds at least 2
items whose sum reaches `0.8 * targetRowSum`. -/
def packRows (brs : Nat) (tgt : ℚ) :
    List (NItem T) → List (NItem T) → ℚ → List (List (NItem T))
  | [], _, _ => []
  | [a], cur, _ => [cur ++ [a]]
  | a :: b :: rest, cur, curSum =>
    let cur' := cur ++ [a]
    let s' := curSum + a.normalizedValue
    if brs ≤ cur'.length ∨ (tgt * (4 / 5) ≤ s' ∧ 2 ≤ cur'.length) then
      cur' :: packRows brs tgt (b :: rest) [] 0
    else
      packRows brs tgt (b :: rest) cur' s'

/-- Lay the items of one row out left to right, each with width
`width * (item.normalizedValue / rowSum)` and the row's common height. -/
def rowRects (row : List (NItem T)) (cx y w rh rowSum : ℚ) :
    List (DataRect T) :=
  match row with
  | [] => []
  | it :: rest =>
    let iw := w * (it.normalizedValue / rowSum)
    ⟨cx, y, iw, rh, it.data⟩ :: rowRects rest (cx + iw) y w rh rowSum

/-- Lay the rows out top to bottom, each with height
`height * (rowSum / total)`. -/
def rowsRects (rows : List (List (NItem T))) (x cy w h total : ℚ) :
    List (DataRect T) :=
  match rows with
  | [] => []
  | row :: rest =>
    let rowSum := nvSum row
    let rh := h * (rowSum / total)
    rowRects row x cy w rh rowSum ++ rowsRects rest x (cy + rh) w h total

/-- `bestRowSize` as computed in the mobile `slice`: note that the source
tests `uniformity > 0.5 && items.length >= 4` FIRST and only reaches the
`uniformity > 0.7 && items.length >= 6` test in the `else` arm, which makes
the `bestRowSize = 4` assignment unreachable (its condition implies the
first one). -/
def bestRowSize (unif : ℚ) (len : Nat) : Nat :=
  if 1 / 2 < unif ∧ 4 ≤ len then 3
  else if 7 / 10 < unif ∧ 6 ≤ len then 4
  else 2

/-- The rows the mobile branch of `slice` builds from the item list. -/
def mobileRows (items : List (NItem T)) (total : ℚ) :
    List (List (NItem T)) :=
  let maxItem := qmax (items.map (·.normalizedValue))
  let minItem := qmin (items.map (·.normalizedValue))
  let unif := minItem / maxItem
  let brs := bestRowSize unif items.length
  let tgt := total / ((⌈(items.length : ℚ) / (brs : ℚ)⌉ : ℤ) : ℚ)
  packRows brs tgt items [] 0

/-- The mobile `slice`: with the `forceMobileLayout` flag and at least 3
items it tries row packing first (used only if it produces more than one
row); otherwise the binary split, stacking vertically under the flag and
otherwise cutting vertically exactly when `width / height > 0.7`. -/
def mslice : List (NItem T) → ℚ → ℚ → ℚ → ℚ → Bool → List (DataRect T)
  | [], _, _, _, _, _ => []
  | [it], x, y, w, h, _ => [⟨x, y, w, h, it.data⟩]
  | it₀ :: it₁ :: rest, x, y, w, h, fm =>
    let items := it₀ :: it₁ :: rest
    let total := nvSum items
    let rows := if fm ∧ 3 ≤ items.length then mobileRows items total else []
    if 2 ≤ rows.length then rowsRects rows x y w h total
    else
      let si := splitIndex items total
      let leftItems := items.take si
      let rightItems := items.drop si
      let leftSum := nvSum leftItems
      if fm then
        let lh := h * (leftSum / total)
        mslice leftItems x y w lh fm ++
          mslice rightItems x (y + lh) w (h - lh) fm
      else if 7 / 10 < w / h then
        let lw := w * (leftSum / total)
        mslice leftItems x y lw h fm ++
          mslice rightItems (x + lw) y (w - lw) h fm
      else
        let lh := h * (leftSum / total)
        mslice leftItems x y w lh fm ++
          mslice rightItems x (y + lh) w (h - lh) fm
termination_by items => items.length
decreasing_by
  all_goals
    have h1 : 1 ≤ splitIndex (it₀ :: it₁ :: rest) (nvSum (it₀ :: it₁ :: rest)) :=
      le_max_left _ _
    have h2 : splitIndex (it₀ :: it₁ :: rest) (nvSum (it₀ :: it₁ :: rest)) ≤
        (it₀ :: it₁ :: rest).length - 1 :=
      max_le (by simp only [List.length_cons]; omega) (min_le_right _ _)
    simp only [List.length_take, List.length_drop, List.length_cons] at *
    omega

/-- The mobile `squarify`: normalizes values to areas and calls the mobile
`slice`, passing the `forceMobileLayout` flag through. -/
def msquarify (items : List (SItem T)) (x y width height : ℚ) (fm : Bool) :
    List (DataRect T) :=
  let total := (items.map (·.value)).sum
  if total = 0 ∨ items.length = 0 then []
  else
    let normalized := items.map fun it =>
      NItem.mk it.value it.data ((it.value / total) * width * height)
    mslice normalized x y width height fm

/-! ### The aggregator

The `parts` useMemo of the `Home` page component turns the flat row list
into the Part → Section → Entity tree (`TreemapPart[]`).  We model the
JavaScript `Map`s as association lists: `Map.set` updates in place when the
key exists and appends otherwise, `Map` iteration follows insertion
order. -/

/-- The fields of a raw budget row that the components read.  Field names
follow the source where Lean allows it (`'Part name'` → `partName`,
`'2025 approved'` → `approved2025`, `'2026 revised estimate'` →
`revised2026`, and so on); `entity_name` is the distinct lower-case source
field, `entityName` is `'Entity name'`.  Nullable / possibly-absent fields
are `Option`s. -/
structure BudgetItem where
  row_type : String
  Part : String
  partName : String
  Section : Option String
  sectionName : Option String
  entityName : Option String
  chapterTitle : Option String
  entity_name : Option String
  approved2025 : Option ℚ
  proposed2026 : Option ℚ
  revised2026 : ℚ
  deriving Repr, DecidableEq

/-- JavaScript `s || d` for an optional string `s`: the empty string is
falsy, so it also falls through to the default. -/
def strOr (o : Option String) (d : String) : String :=
  match o with
  | none => d
  | some s => if s = "" then d else s

/-- JavaScript `a || b` where both operands are optional strings. -/
def strOr2 (a b : Option String) : Option String :=
  match a with
  | none => b
  | some s => if s = "" then b else some s

/-- Template-literal stringification of a possibly-absent value:
`` `${undefined}` `` is the string `"undefined"`. -/
def tmpl (o : Option String) : String := o.getD "undefined"

/-- `const sectionKey = b.Section || 'default'`. -/
def secKey (b : BudgetItem) : String := strOr b.Section "default"

/-- The `TreemapEntity` payload built by the aggregator (`section` is a
Lean keyword, so that field is `sectionId` here). -/
structure TreemapEntity where
  id : String
  name : String
  part : String
  partName : String
  sectionId : String
  sectionName : String
  budget : ℚ
  budgetItem : BudgetItem
  deriving Repr, DecidableEq

/-- The per-section record held in the aggregator's intermediate
`partMap`: `{ sectionName, entities }`. -/
structure SectionData where
  sectionName : String
  entities : List TreemapEntity
  deriving Repr, DecidableEq

/-- The per-part record held in the aggregator's intermediate `partMap`:
`{ partName, sections }` with `sections` an insertion-ordered map. -/
structure PartData where
  partName : String
  sections : List (String × SectionData)
  deriving Repr, DecidableEq

/-- A `TreemapSection` of the finished tree (`section` is a Lean keyword,
so that field is `sectionId` here). -/
structure TreemapSection where
  sectionId : String
  sectionName : String
  entities : List TreemapEntity
  totalBudget : ℚ
  deriving Repr, DecidableEq

/-- A `TreemapPart` of the finished tree. -/
structure TreemapPart where
  part : String
  partName : String
  sections : List TreemapSection
  totalBudget : ℚ
  color : String
  approved2025 : ℚ
  varianceVs2025 : ℚ
  deriving Repr, DecidableEq

/-- `Map.get`: the value stored at `k`, if any. -/
def alistFind? {α : Type} : List (String × α) → String → Option α
  | [], _ => none
  | (k', v) :: rest, k => if k' = k then some v else alistFind? rest k

/-- `if (!m.has(k)) m.set(k, v)`: append a fresh binding only when the key
is absent. -/
def alistSetIfAbsent {α : Type} (l : List (String × α)) (k : String) (v : α) :
    List (String × α) :=
  if (alistFind? l k).isSome then l else l ++ [(k, v)]

/-- Mutate the value stored at `k` in place (positions of all bindings are
unchanged). -/
def alistUpdate {α : Type} (l : List (String × α)) (k : String) (f : α → α) :
    List (String × α) :=
  l.map (fun p => if p.1 = k then (p.1, f p.2) else p)

/-- `Map.set`: overwrite in place when the key exists, append otherwise. -/
def alistSet {α : Type} (l : List (String × α)) (k : String) (v : α) :
    List (String × α) :=
  if (alistFind? l k).isSome then alistUpdate l k (fun _ => v) else l ++ [(k, v)]

/-- The keys of an association list, in order. -/
def alistKeys {α : Type} (l : List (String × α)) : List String :=
  l.map (·.1)

/-- The association list has pairwise-distinct keys (true of any list built
with `alistSet` / `alistSetIfAbsent` / `alistUpdate`, as a `Map` has). -/
def NodupKeys {α : Type} (l : List (String × α)) : Prop :=
  (alistKeys l).Nodup

/-- `partTotals`: rows of type `part_total` keyed by `Part`. -/
def partTotalsMap (data : List BudgetItem) : List (String × BudgetItem) :=
  (data.filter (fun b => b.row_type == "part_total")).foldl
    (fun m b => alistSet m b.Part b) []

/-- `sectionsWithEntities`: the composite keys
`` `${partKey}-${sectionKey}` `` of all qualifying
(`revised_2026 > 0`) entity rows. -/
def swe (data : List BudgetItem) : List String :=
  (data.filter (fun b =>
    b.row_type == "entity_total" && decide (0 < b.revised2026))).map
    (fun b => b.Part ++ "-" ++ secKey b)

/-- The `TreemapEntity` the aggregator builds from a qualifying
`entity_total` row. -/
def mkEntityLeaf (b : BudgetItem) : TreemapEntity :=
  { id := b.Part ++ "-" ++ secKey b ++ "-" ++
      tmpl (strOr2 b.entityName b.chapterTitle)
    name := strOr (strOr2 b.entityName b.chapterTitle) "Unknown"
    part := b.Part
    partName := b.partName
    sectionId := secKey b
    sectionName := strOr b.sectionName ""
    budget := b.revised2026
    budgetItem := b }

/-- The synthetic *section-as-entity* `TreemapEntity` the aggregator builds
from a `section_total` row whose section has no qualifying entities. -/
def mkSectionLeaf (b : BudgetItem) : TreemapEntity :=
  { id := b.Part ++ "-" ++ secKey b ++ "-section"
    name := strOr b.sectionName "Unknown Section"
    part := b.Part
    partName := b.partName
    sectionId := secKey b
    sectionName := strOr b.sectionName ""
    budget := b.revised2026
    budgetItem := b }

/-- The shared body of both aggregator loops: ensure the part entry and the
section entry exist (creating them with the row's display names), then push
the entity onto the section's entity list. -/
def pushEntity (m : List (String × PartData)) (pk sk pn sn : String)
    (e : TreemapEntity) : List (String × PartData) :=
  alistUpdate (alistSetIfAbsent m pk ⟨pn, []⟩) pk (fun pd =>
    { pd with sections :=
        (alistUpdate (alistSetIfAbsent pd.sections sk ⟨sn, []⟩) sk
          (fun sd => { sd with entities := sd.entities ++ [e] })) })

/-- One step of the `entityRows.forEach` loop: rows with
`revised_2026 ≤ 0` are skipped. -/
def addEntityRow (m : List (String × PartData)) (b : BudgetItem) :
    List (String × PartData) :=
  if b.revised2026 ≤ 0 then m
  else pushEntity m b.Part (secKey b) b.partName (strOr b.sectionName "")
    (mkEntityLeaf b)

/-- One step of the `sectionRows.forEach` loop: rows with
`revised_2026 ≤ 0` are skipped, as are rows whose composite id is in
`sectionsWithEntities`. -/
def addSectionRow (s : List String) (m : List (String × PartData))
    (b : BudgetItem) : List (String × PartData) :=
  if b.revised2026 ≤ 0 then m
  else if (b.Part ++ "-" ++ secKey b) ∈ s then m
  else pushEntity m b.Part (secKey b) b.partName (strOr b.sectionName "")
    (mkSectionLeaf b)

/-- The aggregator's intermediate `partMap`: all `entity_total` rows are
processed first, then all `section_total` rows (skipping sections already
covered by a qualifying entity). -/
def buildPartMap (data : List BudgetItem) : List (String × PartData) :=
  (data.filter (fun b => b.row_type == "section_total")).foldl
    (addSectionRow (swe data))
    ((data.filter (fun b => b.row_type == "entity_total")).foldl
      addEntityRow [])

/-- The entity list stored for `(partKey, sectionKey)`, or `[]`. -/
def entitiesAt (m : List (String × PartData)) (pk sk : String) :
    List TreemapEntity :=
  match (alistFind? m pk).bind (fun pd => alistFind? pd.sections sk) with
  | none => []
  | some sd => sd.entities

/-- Sum of the entities' `budget` fields (the
`entities.reduce((sum, e) => sum + e.budget, 0)` expression). -/
def entSum (es : List TreemapEntity) : ℚ :=
  (es.map (·.budget)).sum

/-- The `TreemapSection[]` built for one part: each section's
`totalBudget` is the sum of its retained entities' budgets. -/
def buildSections (pd : PartData) : List TreemapSection :=
  pd.sections.map (fun p => ⟨p.1, p.2.sectionName, p.2.entities,
    entSum p.2.entities⟩)

/-- The canonical Part ordering (`partOrder` in the source). -/
def partOrder : List String :=
  ["Part I", "Part II", "Part III", "Part IV", "Part V", "Part VI",
   "Part VII", "Part VIII", "Part IX", "Part X", "Part XI", "Part XII",
   "Part XIII", "Part XIV"]

/-- The aggregator: walk `partOrder`, skip absent Parts, compute each
section's total as the sum of its entities and the part's total as the sum
of its sections, include the part only when that total is strictly
positive, and annotate it with `approved2025` / `varianceVs2025` taken from
the matching `part_total` row (`?? 0` when absent). -/
def buildTree (data : List BudgetItem) : List TreemapPart :=
  if data.length = 0 then []
  else
    let pt := partTotalsMap data
    let m := buildPartMap data
    partOrder.filterMap (fun pk =>
      match alistFind? m pk with
      | none => none
      | some pd =>
        let sections := buildSections pd
        let partTotal := (sections.map (·.totalBudget)).sum
        if 0 < partTotal then
          let approved := ((alistFind? pt pk).bind (·.approved2025)).getD 0
          let revised := ((alistFind? pt pk).map (·.revised2026)).getD 0
          let variance :=
            if 0 < approved then ((revised - approved) / approved) * 100
            else 0
          some ⟨pk, pd.partName, sections, partTotal, "", approved, variance⟩
        else none)

/-- The Boolean filter matching the `entity_total` rows that contribute a
leaf at `(pk, sk)`: qualifying (`revised_2026 > 0`) with matching part and
section keys. -/
def entLeafFor (pk sk : String) (b : BudgetItem) : Bool :=
  decide (0 < b.revised2026) && b.Part == pk && secKey b == sk

/-- The Boolean filter matching the `section_total` rows that contribute a
*section-as-entity* leaf at `(pk, sk)`: qualifying, matching keys, and not
skipped because `sectionsWithEntities` contains the composite id. -/
def secLeafFor (s : List String) (pk sk : String) (b : BudgetItem) : Bool :=
  decide (0 < b.revised2026) && b.Part == pk && secKey b == sk &&
    !(decide ((b.Part ++ "-" ++ secKey b) ∈ s))

/-- Well-formedness of the intermediate `partMap`: distinct part keys, and
distinct section keys within every part (the `Map` invariant). -/
def WFmap (m : List (String × PartData)) : Prop :=
  NodupKeys m ∧ ∀ p ∈ m, NodupKeys p.2.sections

/-- Invariant of the intermediate `partMap`: every section entry that
exists holds a non-empty entity list (entries are only ever created by
pushing an entity). -/
def SecNE (m : List (String × PartData)) : Prop :=
  ∀ pk sk, ((alistFind? m pk).bind
    (fun pd => alistFind? pd.sections sk)).isSome = true →
    entitiesAt m pk sk ≠ []

/-- Invariant of the intermediate `partMap`: every part entry holds a
non-empty section map. -/
def PartNE (m : List (String × PartData)) : Prop :=
  ∀ pk pd, alistFind? m pk = some pd → pd.sections ≠ []

/-! ### The treemap render pass's in-place entity sort (both variants)

`section.entities.sort((a, b) => b.budget - a.budget)` — JavaScript
`Array.prototype.sort` sorts the array in place (and is stable), so the
render pass rewrites the `entities` array of every section node of the
tree it was given.  The post-render state of the tree is modelled here:
a stable descending insertion sort by `budget`. -/

/-- Stable insertion into a list sorted descending by `budget`: the new
element passes over every earlier element whose budget is not strictly
smaller, so equal-budget elements keep their input order. -/
def insertDescBudget (e : TreemapEntity) :
    List TreemapEntity → List TreemapEntity
  | [] => [e]
  | a :: t =>
    if a.budget < e.budget then e :: a :: t else a :: insertDescBudget e t

/-- The stable sort `entities.sort((a, b) => b.budget - a.budget)`:
descending by budget, equal budgets in input order. -/
def sortEntitiesDesc (l : List TreemapEntity) : List TreemapEntity :=
  l.foldl (fun acc e => insertDescBudget e acc) []

/-- The state of a section node after the render pass: its `entities`
array has been sorted in place. -/
def sectionAfterLayout (s : TreemapSection) : TreemapSection :=
  { s with entities := sortEntitiesDesc s.entities }

/-- The state of the whole tree after the render pass has visited every
section of every part. -/
def treeAfterLayout (parts : List TreemapPart) : List TreemapPart :=
  parts.map (fun p => { p with sections := p.sections.map sectionAfterLayout })

/-! ### BudgetLollipop: generateTicks -/

/-- `generateTicks` from BudgetLollipop.tsx: start from `[0]`, push every
candidate of `[100M, 250M, 500M, 750M, 1B]` that is `≤ maxValue`, and if
the last tick is below `maxValue * 0.9` push
`Math.ceil(maxValue / 100_000_000) * 100_000_000`. -/
def generateTicks (maxValue : ℚ) : List ℚ :=
  let targets : List ℚ :=
    [100000000, 250000000, 500000000, 750000000, 1000000000]
  let ticks := 0 :: targets.filter (fun t => t ≤ maxValue)
  if ticks.getLastD 0 < maxValue * (9/10) then
    ticks ++ [((⌈maxValue / 100000000⌉ : ℤ) : ℚ) * 100000000]
  else ticks

/-! ### BudgetLollipop: row building -/

/-- JavaScript `v || 0` for a possibly-absent number (0 is falsy, so the
absent and the zero case coincide). -/
def qOr (o : Option ℚ) : ℚ := o.getD 0

/-- JavaScript `s || undefined` for an optional string: the empty string
is falsy and becomes `undefined`. -/
def strOrNone (o : Option String) : Option String :=
  match o with
  | some "" => none
  | x => x

/-- Replace the first occurrence of the character pattern `p` by `r`
(JavaScript `String.prototype.replace` with a string pattern replaces
only the first occurrence). -/
def replFirst (p r : List Char) : List Char → List Char
  | [] => []
  | c :: t =>
    if p.isPrefixOf (c :: t) then r ++ (c :: t).drop p.length
    else c :: replFirst p r t

/-- `s.replace(pat, rep)` on JavaScript strings: first occurrence only
(an empty pattern matches at the start). -/
def strReplaceFirst (s pat rep : String) : String :=
  if s.data = [] then (if pat.data = [] then rep else s)
  else ⟨replFirst pat.data rep.data s.data⟩

/-- `s.startsWith(p)` for JavaScript strings. -/
def strStartsWith (s p : String) : Bool := p.data.isPrefixOf s.data

/-- `getNumeral = (partKey) => partKey.replace("Part ", "")`. -/
def getNumeral (pk : String) : String := strReplaceFirst pk "Part " ""

/-- A row of the lollipop chart (the `LollipopRow` objects pushed by the
rows build; `partNumber` duplicates `numeral` at level 0). -/
structure LollipopRow where
  id : String
  label : String
  numeral : String
  level : Nat
  approved2025 : ℚ
  proposed2026 : ℚ
  revised2026 : ℚ
  partKey : String
  partNumber : String
  sectionKey : Option String
  hasChildren : Bool
  budgetItem : BudgetItem
  deriving Repr, DecidableEq

/-- The four maps the lollipop builds in one pass over `budgetData`:
`partTotals`, `sectionTotals`, `entities`, `sectionsPerPart`. -/
structure LollipopMaps where
  partTotals : List (String × BudgetItem)
  sectionTotals : List (String × BudgetItem)
  entities : List (String × List BudgetItem)
  sectionsPerPart : List (String × List String)
  deriving Repr, DecidableEq

/-- One iteration of the `budgetData.forEach` that fills the four maps
(the three `if` branches touch disjoint maps). -/
def lstep (m : LollipopMaps) (b : BudgetItem) : LollipopMaps :=
  let m₁ :=
    if b.row_type == "part_total" then
      { m with partTotals := alistSet m.partTotals b.Part b }
    else m
  let m₂ :=
    if b.row_type == "section_total" then
      { m₁ with
        sectionTotals :=
          alistSet m₁.sectionTotals (b.Part ++ "-" ++ tmpl b.Section) b,
        sectionsPerPart :=
          alistUpdate (alistSetIfAbsent m₁.sectionsPerPart b.Part [])
            b.Part (fun l => l ++ [strOr b.Section ""]) }
    else m₁
  if b.row_type == "entity_total" then
    { m₂ with
      entities :=
        alistUpdate
          (alistSetIfAbsent m₂.entities (b.Part ++ "-" ++ tmpl b.Section) [])
          (b.Part ++ "-" ++ tmpl b.Section) (fun l => l ++ [b]) }
  else m₂

/-- The four lookup maps built from `budgetData`. -/
def lmaps (data : List BudgetItem) : LollipopMaps :=
  data.foldl lstep ⟨[], [], [], []⟩

/-- The sort key of the section sort: `a.Section || ""`. -/
def lsecKey (b : BudgetItem) : String := strOr b.Section ""

/-- Stable insertion into a list sorted ascending by `lsecKey`
(`localeCompare` modelled as lexicographic string comparison). -/
def insertSecAsc (b : BudgetItem) : List BudgetItem → List BudgetItem
  | [] => [b]
  | a :: t =>
    if lsecKey b < lsecKey a then b :: a :: t else a :: insertSecAsc b t

/-- The stable sort
`sort((a, b) => (a.Section || "").localeCompare(b.Section || ""))`. -/
def sortSections (l : List BudgetItem) : List BudgetItem :=
  l.foldl (fun acc b => insertSecAsc b acc) []

/-- Stable insertion into a list sorted descending by `revised2026`
(`b["2026 revised estimate"] || 0` is the identity on the total field). -/
def insertEntDesc (b : BudgetItem) : List BudgetItem → List BudgetItem
  | [] => [b]
  | a :: t =>
    if a.revised2026 < b.revised2026 then b :: a :: t
    else a :: insertEntDesc b t

/-- The stable sort `sectionEntities.sort((a, b) => b.rev - a.rev)`. -/
def sortEntDesc (l : List BudgetItem) : List BudgetItem :=
  l.foldl (fun acc b => insertEntDesc b acc) []

/-- The section rows collected for one part: the `sectionTotals` entries
whose key starts with `partKey + "-"` (in map insertion order), then
sorted ascending by section identifier. -/
def sectionsForPart (m : LollipopMaps) (pk : String) : List BudgetItem :=
  sortSections
    ((m.sectionTotals.filter (fun p => strStartsWith p.1 (pk ++ "-"))).map (·.2))

/-- The level-0 row pushed for a part. -/
def partRowOf (m : LollipopMaps) (pk : String) (b : BudgetItem) :
    LollipopRow :=
  { id := pk
    label := b.partName
    numeral := getNumeral pk
    level := 0
    approved2025 := qOr b.approved2025
    proposed2026 := qOr b.proposed2026
    revised2026 := b.revised2026
    partKey := pk
    partNumber := getNumeral pk
    sectionKey := none
    hasChildren := !((alistFind? m.sectionsPerPart pk).getD []).isEmpty
    budgetItem := b }

/-- The level-1 row pushed for a section. -/
def secRowOf (pk : String) (sd : BudgetItem) (hasChildren : Bool) :
    LollipopRow :=
  { id := pk ++ "-" ++ tmpl sd.Section
    label :=
      if hasChildren then strOr sd.sectionName ""
      else strOr (strOr2 sd.entity_name sd.sectionName) ""
    numeral := strOr sd.Section ""
    level := 1
    approved2025 := qOr sd.approved2025
    proposed2026 := qOr sd.proposed2026
    revised2026 := sd.revised2026
    partKey := pk
    partNumber := getNumeral pk
    sectionKey := strOrNone sd.Section
    hasChildren := hasChildren
    budgetItem := sd }

/-- The level-2 row pushed for an entity. -/
def entRowOf (pk : String) (sid : String) (sd eb : BudgetItem) :
    LollipopRow :=
  { id := sid ++ "-" ++ tmpl eb.entityName
    label := strOr (strOr2 eb.entity_name eb.entityName) "Unknown"
    numeral := ""
    level := 2
    approved2025 := qOr eb.approved2025
    proposed2026 := qOr eb.proposed2026
    revised2026 := eb.revised2026
    partKey := pk
    partNumber := getNumeral pk
    sectionKey := strOrNone sd.Section
    hasChildren := false
    budgetItem := eb }

/-- Rows pushed while visiting one section of an expanded part: the
section row, then — if the section's composite id is expanded — its
entities sorted descending by `revised2026`. -/
def sectionBlock (m : LollipopMaps) (exp : List String) (pk : String)
    (sd : BudgetItem) : List LollipopRow :=
  let sid := pk ++ "-" ++ tmpl sd.Section
  let sectionEntities := (alistFind? m.entities sid).getD []
  secRowOf pk sd (!sectionEntities.isEmpty) ::
    (if sid ∈ exp then
      (sortEntDesc sectionEntities).map (entRowOf pk sid sd)
    else [])

/-- Rows pushed for one part key of `PART_ORDER`: nothing if `partTotals`
has no entry; otherwise the part row followed — if the part is expanded —
by the blocks of its sorted sections. -/
def partBlock (m : LollipopMaps) (exp : List String) (pk : String) :
    List LollipopRow :=
  match alistFind? m.partTotals pk with
  | none => []
  | some b =>
    partRowOf m pk b ::
      (if pk ∈ exp then
        (sectionsForPart m pk).flatMap (sectionBlock m exp pk)
      else [])

/-- The full rows array of the lollipop chart: `PART_ORDER.forEach`,
given the row list and the expanded-id set (as a list). -/
def lrows (data : List BudgetItem) (exp : List String) : List LollipopRow :=
  partOrder.flatMap (partBlock (lmaps data) exp)

/-- The level-1 rows an expanded part contributes: one section row per
sorted section, with `hasChildren` read off the `entities` map. -/
def secRowsOf (m : LollipopMaps) (pk : String) : List LollipopRow :=
  (sectionsForPart m pk).map (fun sd =>
    secRowOf pk sd
      (!((alistFind? m.entities (pk ++ "-" ++ tmpl sd.Section)).getD
        []).isEmpty))

/-- The level-2 rows an expanded part contributes: for each sorted
section whose composite id is expanded, its entities sorted descending
by `revised2026`. -/
def entRowsOf (m : LollipopMaps) (exp : List String) (pk : String) :
    List LollipopRow :=
  (sectionsForPart m pk).flatMap (fun sd =>
    let sid := pk ++ "-" ++ tmpl sd.Section
    if sid ∈ exp then
      (sortEntDesc ((alistFind? m.entities sid).getD [])).map
        (entRowOf pk sid sd)
    else [])

/-! ## Theorems -/

theorem splitIndex_ge_one (items : List (NItem T)) (total : ℚ) :
    1 ≤ splitIndex items total :=
  le_max_left _ _

theorem splitIndex_le (items : List (NItem T)) (total : ℚ)
    (h : 2 ≤ items.length) : splitIndex items total ≤ items.length - 1 := by
  exact max_le (by omega) (min_le_right _ _)

theorem nvSum_split (items : List (NItem T)) (n : Nat) :
    nvSum items = nvSum (items.take n) + nvSum (items.drop n) := by
  conv_lhs => rw [← List.take_append_drop n items]
  simp [nvSum]

theorem nvSum_pos (items : List (NItem T)) (hne : items ≠ [])
    (hpos : ∀ it ∈ items, 0 < it.normalizedValue) : 0 < nvSum items := by
  apply List.sum_pos
  · intro q hq
    simp only [nvSum, List.mem_map] at hq
    obtain ⟨it, hit, rfl⟩ := hq
    exact hpos it hit
  · simpa [nvSum] using hne

theorem take_splitIndex_ne_nil (items : List (NItem T)) (total : ℚ)
    (h : 2 ≤ items.length) : items.take (splitIndex items total) ≠ [] := by
  have h1 := splitIndex_ge_one items total
  apply List.ne_nil_of_length_pos
  simp only [List.length_take]
  omega

theorem drop_splitIndex_ne_nil (items : List (NItem T)) (total : ℚ)
    (h : 2 ≤ items.length) : items.drop (splitIndex items total) ≠ [] := by
  have h1 := splitIndex_le items total h
  apply List.ne_nil_of_length_pos
  simp only [List.length_drop]
  omega

theorem slice_len_facts (it₀ it₁ : NItem T) (rest : List (NItem T)) (total : ℚ) :
    1 ≤ splitIndex (it₀ :: it₁ :: rest) total ∧
    splitIndex (it₀ :: it₁ :: rest) total ≤ rest.length + 1 := by
  refine ⟨splitIndex_ge_one _ _, ?_⟩
  have := splitIndex_le (it₀ :: it₁ :: rest) total (by simp)
  simpa using this

theorem slice_map_data_aux (n : Nat) :
    ∀ (items : List (NItem T)), items.length ≤ n → ∀ (x y w h : ℚ),
      (slice items x y w h).map (·.data) = items.map (·.data) := by
  induction n with
  | zero =>
    intro items hlen x y w h
    have : items = [] := List.eq_nil_of_length_eq_zero (by omega)
    subst this
    simp [slice]
  | succ n ih =>
    intro items hlen x y w h
    match items with
    | [] => simp [slice]
    | [it] => simp [slice]
    | it₀ :: it₁ :: rest =>
      rw [slice]
      obtain ⟨hsi1, hsi2⟩ :=
        slice_len_facts it₀ it₁ rest (nvSum (it₀ :: it₁ :: rest))
      have hlen' : rest.length + 2 ≤ n + 1 := by simpa using hlen
      have hlt1 : ((it₀ :: it₁ :: rest).take
          (splitIndex (it₀ :: it₁ :: rest) (nvSum (it₀ :: it₁ :: rest)))).length ≤ n := by
        simp only [List.length_take, List.length_cons]; omega
      have hlt2 : ((it₀ :: it₁ :: rest).drop
          (splitIndex (it₀ :: it₁ :: rest) (nvSum (it₀ :: it₁ :: rest)))).length ≤ n := by
        simp only [List.length_drop, List.length_cons]; omega
      by_cases hcond : h ≤ w
      · rw [if_pos hcond, List.map_append, ih _ hlt1, ih _ hlt2,
          ← List.map_append, List.take_append_drop]
      · rw [if_neg hcond, List.map_append, ih _ hlt1, ih _ hlt2,
          ← List.map_append, List.take_append_drop]

/-- The recursive split never loses, duplicates or reorders items: the
payloads of `slice`'s output are exactly the payloads of its input, in
input order. -/
theorem slice_map_data (items : List (NItem T)) (x y w h : ℚ) :
    (slice items x y w h).map (·.data) = items.map (·.data) :=
  slice_map_data_aux items.length items (le_refl _) x y w h

theorem slice_area_sum_aux (n : Nat) :
    ∀ (items : List (NItem T)), items.length ≤ n → items ≠ [] →
      ∀ (x y w h : ℚ), ((slice items x y w h).map rectArea).sum = w * h := by
  induction n with
  | zero =>
    intro items hlen hne
    exact absurd (List.eq_nil_of_length_eq_zero (by omega)) hne
  | succ n ih =>
    intro items hlen hne x y w h
    match items with
    | [] => exact absurd rfl hne
    | [it] => simp [slice, rectArea]
    | it₀ :: it₁ :: rest =>
      rw [slice]
      obtain ⟨hsi1, hsi2⟩ :=
        slice_len_facts it₀ it₁ rest (nvSum (it₀ :: it₁ :: rest))
      have hlen' : rest.length + 2 ≤ n + 1 := by simpa using hlen
      have hlt1 : ((it₀ :: it₁ :: rest).take
          (splitIndex (it₀ :: it₁ :: rest) (nvSum (it₀ :: it₁ :: rest)))).length ≤ n := by
        simp only [List.length_take, List.length_cons]; omega
      have hlt2 : ((it₀ :: it₁ :: rest).drop
          (splitIndex (it₀ :: it₁ :: rest) (nvSum (it₀ :: it₁ :: rest)))).length ≤ n := by
        simp only [List.length_drop, List.length_cons]; omega
      have hne1 := take_splitIndex_ne_nil (it₀ :: it₁ :: rest)
        (nvSum (it₀ :: it₁ :: rest)) (by simp)
      have hne2 := drop_splitIndex_ne_nil (it₀ :: it₁ :: rest)
        (nvSum (it₀ :: it₁ :: rest)) (by simp)
      by_cases hcond : h ≤ w
      · rw [if_pos hcond, List.map_append, List.sum_append,
          ih _ hlt1 hne1, ih _ hlt2 hne2]
        ring
      · rw [if_neg hcond, List.map_append, List.sum_append,
          ih _ hlt1 hne1, ih _ hlt2 hne2]
        ring

/-- The binary split is area-preserving: for a non-empty item list the areas
of the returned rectangles always sum to the area of the given box (the two
sub-boxes of each split are exact complements, whatever the weights are). -/
theorem slice_area_sum (items : List (NItem T)) (x y w h : ℚ)
    (hne : items ≠ []) :
    ((slice items x y w h).map rectArea).sum = w * h :=
  slice_area_sum_aux items.length items (le_refl _) hne x y w h

theorem inBox_mono {x y w h x' y' w' h' : ℚ} {r : DataRect T}
    (hr : InBox x' y' w' h' r) (hx : x ≤ x') (hy : y ≤ y')
    (hxw : x' + w' ≤ x + w) (hyh : y' + h' ≤ y + h) : InBox x y w h r := by
  obtain ⟨h1, h2, h3, h4, h5, h6⟩ := hr
  exact ⟨h1, h2, le_trans hx h3, le_trans hy h4, le_trans h5 hxw, le_trans h6 hyh⟩

theorem slice_inBox_aux (n : Nat) :
    ∀ (items : List (NItem T)), items.length ≤ n →
      (∀ it ∈ items, 0 < it.normalizedValue) → ∀ (x y w h : ℚ),
      0 < w → 0 < h → ∀ r ∈ slice items x y w h, InBox x y w h r := by
  induction n with
  | zero =>
    intro items hlen _ x y w h _ _ r hr
    have : items = [] := List.eq_nil_of_length_eq_zero (by omega)
    subst this
    simp [slice] at hr
  | succ n ih =>
    intro items hlen hpos x y w h hw hh r hr
    match items with
    | [] => simp [slice] at hr
    | [it] =>
      simp only [slice, List.mem_singleton] at hr
      subst hr
      exact ⟨hw, hh, le_refl _, le_refl _, le_refl _, le_refl _⟩
    | it₀ :: it₁ :: rest =>
      rw [slice] at hr
      obtain ⟨hsi1, hsi2⟩ :=
        slice_len_facts it₀ it₁ rest (nvSum (it₀ :: it₁ :: rest))
      have hlen' : rest.length + 2 ≤ n + 1 := by simpa using hlen
      set si := splitIndex (it₀ :: it₁ :: rest) (nvSum (it₀ :: it₁ :: rest))
        with hsi_def
      have hlt1 : ((it₀ :: it₁ :: rest).take si).length ≤ n := by
        simp only [List.length_take, List.length_cons]; omega
      have hlt2 : ((it₀ :: it₁ :: rest).drop si).length ≤ n := by
        simp only [List.length_drop, List.length_cons]; omega
      have hlpos : ∀ it ∈ (it₀ :: it₁ :: rest).take si, 0 < it.normalizedValue :=
        fun it hit => hpos it (List.mem_of_mem_take hit)
      have hrpos : ∀ it ∈ (it₀ :: it₁ :: rest).drop si, 0 < it.normalizedValue :=
        fun it hit => hpos it (List.mem_of_mem_drop hit)
      have hls : 0 < nvSum ((it₀ :: it₁ :: rest).take si) :=
        nvSum_pos _ (hsi_def ▸ take_splitIndex_ne_nil _ _ (by simp)) hlpos
      have hrs : 0 < nvSum ((it₀ :: it₁ :: rest).drop si) :=
        nvSum_pos _ (hsi_def ▸ drop_splitIndex_ne_nil _ _ (by simp)) hrpos
      have htot : nvSum (it₀ :: it₁ :: rest) =
          nvSum ((it₀ :: it₁ :: rest).take si) +
          nvSum ((it₀ :: it₁ :: rest).drop si) := nvSum_split _ _
      set ls := nvSum ((it₀ :: it₁ :: rest).take si) with hls_def
      set rs := nvSum ((it₀ :: it₁ :: rest).drop si) with hrs_def
      have hfrac1 : 0 < ls / (ls + rs) := div_pos hls (by linarith)
      have hfrac2 : ls / (ls + rs) < 1 := by
        rw [div_lt_one (by linarith)]; linarith
      rw [htot] at hr
      by_cases hcond : h ≤ w
      · rw [if_pos hcond, List.mem_append] at hr
        have hlw1 : 0 < w * (ls / (ls + rs)) := mul_pos hw hfrac1
        have hlw2 : w * (ls / (ls + rs)) < w := by nlinarith
        rcases hr with hr | hr
        · exact inBox_mono (ih _ hlt1 hlpos _ _ _ _ hlw1 hh r hr)
            (le_refl _) (le_refl _) (by linarith) (le_refl _)
        · exact inBox_mono (ih _ hlt2 hrpos _ _ _ _ (by linarith) hh r hr)
            (by linarith) (le_refl _) (by ring_nf; exact le_refl _) (le_refl _)
      · rw [if_neg hcond, List.mem_append] at hr
        have hlh1 : 0 < h * (ls / (ls + rs)) := mul_pos hh hfrac1
        have hlh2 : h * (ls / (ls + rs)) < h := by nlinarith
        rcases hr with hr | hr
        · exact inBox_mono (ih _ hlt1 hlpos _ _ _ _ hw hlh1 r hr)
            (le_refl _) (le_refl _) (le_refl _) (by linarith)
        · exact inBox_mono (ih _ hlt2 hrpos _ _ _ _ hw (by linarith) r hr)
            (le_refl _) (by linarith) (le_refl _) (by ring_nf; exact le_refl _)

/-- With strictly positive weights and a strictly positive box, every
rectangle produced by the binary split has strictly positive width and
height and lies inside the given box. -/
theorem slice_inBox (items : List (NItem T)) (x y w h : ℚ)
    (hpos : ∀ it ∈ items, 0 < it.normalizedValue)
    (hw : 0 < w) (hh : 0 < h) :
    ∀ r ∈ slice items x y w h, InBox x y w h r :=
  slice_inBox_aux items.length items (le_refl _) hpos x y w h hw hh

theorem squarify_guard_false {items : List (SItem T)}
    (hne : items ≠ []) (hpos : ∀ it ∈ items, 0 < it.value) :
    ¬ ((items.map (·.value)).sum = 0 ∨ items.length = 0) := by
  have htot : 0 < (items.map (·.value)).sum := by
    apply List.sum_pos
    · intro q hq
      simp only [List.mem_map] at hq
      obtain ⟨it, hit, rfl⟩ := hq
      exact hpos it hit
    · simpa using hne
  rintro (h | h)
  · linarith
  · exact hne (List.eq_nil_of_length_eq_zero h)

/-- C1: for every non-empty item list whose values are all positive, the sum
of `width * height` over all rectangles returned by
`squarify(items, x, y, width, height)` equals `width * height` of the given
box (area-preserving partition, exact under rational arithmetic). -/
theorem squarify_area_preserving {T : Type} (items : List (SItem T))
    (x y width height : ℚ) (hne : items ≠ [])
    (hpos : ∀ it ∈ items, 0 < it.value) :
    ((squarify items x y width height).map rectArea).sum = width * height := by
  unfold squarify
  rw [if_neg (squarify_guard_false hne hpos)]
  apply slice_area_sum
  simpa using hne

/-- C1 witness: the area-preservation theorem applied to a concrete
two-item list in the box `(0, 0, 100, 100)`. -/
theorem squarify_area_preserving_witness :
    (([SItem.mk 3 (0 : Nat), SItem.mk 2 1] ≠ []) ∧
      (∀ it ∈ [SItem.mk 3 (0 : Nat), SItem.mk 2 1], 0 < it.value)) ∧
    ((squarify [SItem.mk 3 (0 : Nat), SItem.mk 2 1] 0 0 100 100).map
      rectArea).sum = 100 * 100 :=
  ⟨⟨by decide, by decide⟩,
    squarify_area_preserving [SItem.mk 3 (0 : Nat), SItem.mk 2 1] 0 0 100 100
      (by decide) (by decide)⟩

/-- C10: whenever the items' value total is positive, `squarify` returns
exactly one rectangle per input item, in input order, the i-th rectangle
carrying the i-th item's payload. -/
theorem squarify_map_data {T : Type} (items : List (SItem T)) (x y w h : ℚ)
    (htot : 0 < (items.map (·.value)).sum) :
    (squarify items x y w h).map (·.data) = items.map (·.data) := by
  unfold squarify
  have hne : items ≠ [] := by
    intro hcon
    subst hcon
    simp at htot
  rw [if_neg (by push_neg; exact ⟨by linarith, by simpa using hne⟩),
    slice_map_data]
  simp

/-- C10 witness: the order/payload-preservation theorem applied to a
concrete three-item list. -/
theorem squarify_map_data_witness :
    (0 < (([SItem.mk 5 (10 : Nat), SItem.mk 1 20, SItem.mk 3 30]).map
      (·.value)).sum) ∧
    (squarify [SItem.mk 5 (10 : Nat), SItem.mk 1 20, SItem.mk 3 30]
      0 0 100 100).map (·.data) = [10, 20, 30] :=
  ⟨by norm_num,
    by
      rw [squarify_map_data [SItem.mk 5 (10 : Nat), SItem.mk 1 20, SItem.mk 3 30]
        0 0 100 100 (by norm_num)]
      simp⟩

theorem nvSum_append (a b : List (NItem T)) :
    nvSum (a ++ b) = nvSum a + nvSum b := by
  simp [nvSum]

theorem nvSum_join (l : List (List (NItem T))) :
    nvSum l.flatten = (l.map nvSum).sum := by
  induction l with
  | nil => simp [nvSum]
  | cons row rest ih => simp [List.flatten, nvSum_append, ih]

theorem nvSum_nonneg (items : List (NItem T))
    (h : ∀ it ∈ items, 0 < it.normalizedValue) : 0 ≤ nvSum items := by
  apply List.sum_nonneg
  intro q hq
  simp only [nvSum, List.mem_map] at hq
  obtain ⟨it, hit, rfl⟩ := hq
  exact le_of_lt (h it hit)

theorem packRows_join (brs : Nat) (tgt : ℚ) :
    ∀ (l : List (NItem T)), l ≠ [] → ∀ (cur : List (NItem T)) (s : ℚ),
      (packRows brs tgt l cur s).flatten = cur ++ l := by
  intro l
  induction l with
  | nil => intro h; exact absurd rfl h
  | cons a t ih =>
    intro _ cur s
    match t with
    | [] => simp [packRows]
    | b :: rest =>
      rw [packRows]
      by_cases hc : brs ≤ (cur ++ [a]).length ∨
          (tgt * (4 / 5) ≤ s + a.normalizedValue ∧ 2 ≤ (cur ++ [a]).length)
      · rw [if_pos hc]
        simp only [List.flatten]
        rw [ih (by simp) [] 0]
        simp
      · rw [if_neg hc, ih (by simp) (cur ++ [a]) (s + a.normalizedValue)]
        simp

theorem packRows_row_ne_nil (brs : Nat) (tgt : ℚ) :
    ∀ (l cur : List (NItem T)) (s : ℚ) (row : List (NItem T)),
      row ∈ packRows brs tgt l cur s → row ≠ [] := by
  intro l
  induction l with
  | nil => intro cur s row hrow; simp [packRows] at hrow
  | cons a t ih =>
    intro cur s row hrow
    match t with
    | [] =>
      simp only [packRows, List.mem_singleton] at hrow
      subst hrow
      simp
    | b :: rest =>
      rw [packRows] at hrow
      by_cases hc : brs ≤ (cur ++ [a]).length ∨
          (tgt * (4 / 5) ≤ s + a.normalizedValue ∧ 2 ≤ (cur ++ [a]).length)
      · rw [if_pos hc, List.mem_cons] at hrow
        rcases hrow with hrow | hrow
        · subst hrow; simp
        · exact ih [] 0 row hrow
      · rw [if_neg hc] at hrow
        exact ih (cur ++ [a]) (s + a.normalizedValue) row hrow

theorem rowRects_bounds (row : List (NItem T)) :
    ∀ (cx y w rh rs : ℚ), (∀ it ∈ row, 0 < it.normalizedValue) →
      0 < w → 0 < rs →
      ∀ r ∈ rowRects row cx y w rh rs,
        0 < r.width ∧ r.y = y ∧ r.height = rh ∧ cx ≤ r.x ∧
          r.x + r.width ≤ cx + w * (nvSum row / rs) := by
  induction row with
  | nil => intro cx y w rh rs _ _ _ r hr; simp [rowRects] at hr
  | cons it rest ih =>
    intro cx y w rh rs hpos hw hrs r hr
    have hnv : 0 < it.normalizedValue := hpos it (by simp)
    have hrest : 0 ≤ nvSum rest :=
      nvSum_nonneg rest (fun j hj => hpos j (by simp [hj]))
    have hsum : nvSum (it :: rest) = it.normalizedValue + nvSum rest := by
      simp [nvSum]
    simp only [rowRects, List.mem_cons] at hr
    rcases hr with hr | hr
    · subst hr
      refine ⟨mul_pos hw (div_pos hnv hrs), rfl, rfl, le_refl _, ?_⟩
      rw [hsum]
      have h1 : it.normalizedValue / rs ≤
          (it.normalizedValue + nvSum rest) / rs :=
        (div_le_div_iff_of_pos_right hrs).mpr (by linarith)
      nlinarith
    · obtain ⟨h1, h2, h3, h4, h5⟩ := ih (cx + w * (it.normalizedValue / rs))
        y w rh rs (fun j hj => hpos j (by simp [hj])) hw hrs r hr
      have hiw : 0 < w * (it.normalizedValue / rs) :=
        mul_pos hw (div_pos hnv hrs)
      refine ⟨h1, h2, h3, by linarith, ?_⟩
      rw [hsum]
      have : cx + w * (it.normalizedValue / rs) + w * (nvSum rest / rs) =
          cx + w * ((it.normalizedValue + nvSum rest) / rs) := by ring
      linarith [h5, this.symm.le]

theorem rowsRects_bounds (rows : List (List (NItem T))) :
    ∀ (x cy w h total : ℚ),
      (∀ row ∈ rows, row ≠ [] ∧ ∀ it ∈ row, 0 < it.normalizedValue) →
      0 < w → 0 < h → 0 < total →
      ∀ r ∈ rowsRects rows x cy w h total,
        0 < r.width ∧ 0 < r.height ∧ x ≤ r.x ∧ r.x + r.width ≤ x + w ∧
          cy ≤ r.y ∧ r.y + r.height ≤ cy + h * ((rows.map nvSum).sum / total) := by
  induction rows with
  | nil => intro x cy w h total _ _ _ _ r hr; simp [rowsRects] at hr
  | cons row rest ih =>
    intro x cy w h total hrows hw hh ht r hr
    obtain ⟨hne, hpos⟩ := hrows row (by simp)
    have hrs : 0 < nvSum row := nvSum_pos row hne hpos
    have hrh : 0 < h * (nvSum row / total) := mul_pos hh (div_pos hrs ht)
    have hSrest : 0 ≤ (rest.map nvSum).sum := by
      apply List.sum_nonneg
      intro q hq
      simp only [List.mem_map] at hq
      obtain ⟨row', hrow', rfl⟩ := hq
      obtain ⟨hne', hpos'⟩ := hrows row' (by simp [hrow'])
      exact le_of_lt (nvSum_pos row' hne' hpos')
    have hmapsum : ((row :: rest).map nvSum).sum =
        nvSum row + (rest.map nvSum).sum := by simp
    simp only [rowsRects, List.mem_append] at hr
    rcases hr with hr | hr
    · obtain ⟨h1, h2, h3, h4, h5⟩ := rowRects_bounds row x cy w
        (h * (nvSum row / total)) (nvSum row) hpos hw hrs r hr
      rw [div_self (ne_of_gt hrs), mul_one] at h5
      refine ⟨h1, by rw [h3]; exact hrh, h4, h5, by rw [h2], ?_⟩
      rw [h2, h3, hmapsum]
      have hfr : nvSum row / total ≤
          (nvSum row + (rest.map nvSum).sum) / total :=
        (div_le_div_iff_of_pos_right ht).mpr (by linarith)
      nlinarith
    · obtain ⟨h1, h2, h3, h4, h5, h6⟩ := ih x (cy + h * (nvSum row / total))
        w h total (fun row' hrow' => hrows row' (by simp [hrow'])) hw hh ht r hr
      refine ⟨h1, h2, h3, h4, by linarith, ?_⟩
      rw [hmapsum]
      have : cy + h * (nvSum row / total) + h * ((rest.map nvSum).sum / total) =
          cy + h * ((nvSum row + (rest.map nvSum).sum) / total) := by ring
      linarith [h6, this.symm.le]

theorem inBox_vstack {L R : List (DataRect T)} {x y w h ls rs : ℚ}
    (hls : 0 < ls) (hrs : 0 < rs) (hh : 0 < h)
    (hL : ∀ r ∈ L, InBox x y w (h * (ls / (ls + rs))) r)
    (hR : ∀ r ∈ R,
      InBox x (y + h * (ls / (ls + rs))) w (h - h * (ls / (ls + rs))) r) :
    ∀ r ∈ L ++ R, InBox x y w h r := by
  have hfrac1 : 0 < ls / (ls + rs) := div_pos hls (by linarith)
  have hfrac2 : ls / (ls + rs) < 1 := by
    rw [div_lt_one (by linarith)]; linarith
  have hlh2 : h * (ls / (ls + rs)) < h := by nlinarith
  intro r hr
  rcases List.mem_append.mp hr with hr | hr
  · exact inBox_mono (hL r hr) (le_refl _) (le_refl _) (le_refl _) (by linarith)
  · exact inBox_mono (hR r hr) (le_refl _) (by nlinarith) (le_refl _)
      (by linarith)

theorem inBox_hstack {L R : List (DataRect T)} {x y w h ls rs : ℚ}
    (hls : 0 < ls) (hrs : 0 < rs) (hw : 0 < w)
    (hL : ∀ r ∈ L, InBox x y (w * (ls / (ls + rs))) h r)
    (hR : ∀ r ∈ R,
      InBox (x + w * (ls / (ls + rs))) y (w - w * (ls / (ls + rs))) h r) :
    ∀ r ∈ L ++ R, InBox x y w h r := by
  have hfrac1 : 0 < ls / (ls + rs) := div_pos hls (by linarith)
  have hfrac2 : ls / (ls + rs) < 1 := by
    rw [div_lt_one (by linarith)]; linarith
  have hlw2 : w * (ls / (ls + rs)) < w := by nlinarith
  intro r hr
  rcases List.mem_append.mp hr with hr | hr
  · exact inBox_mono (hL r hr) (le_refl _) (le_refl _) (by linarith) (le_refl _)
  · exact inBox_mono (hR r hr) (by nlinarith) (le_refl _) (by linarith)
      (le_refl _)

theorem mslice_inBox_aux (n : Nat) :
    ∀ (items : List (NItem T)), items.length ≤ n →
      (∀ it ∈ items, 0 < it.normalizedValue) → ∀ (x y w h : ℚ) (fm : Bool),
      0 < w → 0 < h → ∀ r ∈ mslice items x y w h fm, InBox x y w h r := by
  induction n with
  | zero =>
    intro items hlen _ x y w h fm _ _ r hr
    have : items = [] := List.eq_nil_of_length_eq_zero (by omega)
    subst this
    simp [mslice] at hr
  | succ n ih =>
    intro items hlen hpos x y w h fm hw hh r hr
    match items with
    | [] => simp [mslice] at hr
    | [it] =>
      simp only [mslice, List.mem_singleton] at hr
      subst hr
      exact ⟨hw, hh, le_refl _, le_refl _, le_refl _, le_refl _⟩
    | it₀ :: it₁ :: rest =>
      rw [mslice] at hr
      have hne : (it₀ :: it₁ :: rest) ≠ [] := by simp
      have htotpos : 0 < nvSum (it₀ :: it₁ :: rest) := nvSum_pos _ hne hpos
      set rows := (if fm ∧ 3 ≤ (it₀ :: it₁ :: rest).length then
        mobileRows (it₀ :: it₁ :: rest) (nvSum (it₀ :: it₁ :: rest)) else [])
        with hrows_def
      by_cases hrow : 2 ≤ rows.length
      · rw [if_pos hrow] at hr
        have hrows_eq : rows = mobileRows (it₀ :: it₁ :: rest)
            (nvSum (it₀ :: it₁ :: rest)) := by
          by_cases hc : fm ∧ 3 ≤ (it₀ :: it₁ :: rest).length
          · rw [hrows_def, if_pos hc]
          · exfalso
            rw [hrows_def, if_neg hc] at hrow
            simp at hrow
        have hjoin : rows.flatten = it₀ :: it₁ :: rest := by
          rw [hrows_eq]
          unfold mobileRows
          rw [packRows_join _ _ _ hne [] 0]
          simp
        have hrowprops : ∀ row ∈ rows, row ≠ [] ∧
            ∀ it ∈ row, 0 < it.normalizedValue := by
          intro row hrowmem
          constructor
          · rw [hrows_eq] at hrowmem
            unfold mobileRows at hrowmem
            exact packRows_row_ne_nil _ _ _ _ _ row hrowmem
          · intro it hit
            apply hpos
            rw [← hjoin]
            exact List.mem_flatten.mpr ⟨row, hrowmem, hit⟩
        have hsum : (rows.map nvSum).sum = nvSum (it₀ :: it₁ :: rest) := by
          rw [← nvSum_join, hjoin]
        obtain ⟨h1, h2, h3, h4, h5, h6⟩ := rowsRects_bounds rows x y w h
          (nvSum (it₀ :: it₁ :: rest)) hrowprops hw hh htotpos r hr
        rw [hsum, div_self (ne_of_gt htotpos), mul_one] at h6
        exact ⟨h1, h2, h3, h5, h4, h6⟩
      · rw [if_neg hrow] at hr
        obtain ⟨hsi1, hsi2⟩ :=
          slice_len_facts it₀ it₁ rest (nvSum (it₀ :: it₁ :: rest))
        have hlen' : rest.length + 2 ≤ n + 1 := by simpa using hlen
        set si := splitIndex (it₀ :: it₁ :: rest) (nvSum (it₀ :: it₁ :: rest))
          with hsi_def
        have hlt1 : ((it₀ :: it₁ :: rest).take si).length ≤ n := by
          simp only [List.length_take, List.length_cons]; omega
        have hlt2 : ((it₀ :: it₁ :: rest).drop si).length ≤ n := by
          simp only [List.length_drop, List.length_cons]; omega
        have hlpos : ∀ it ∈ (it₀ :: it₁ :: rest).take si,
            0 < it.normalizedValue :=
          fun it hit => hpos it (List.mem_of_mem_take hit)
        have hrpos : ∀ it ∈ (it₀ :: it₁ :: rest).drop si,
            0 < it.normalizedValue :=
          fun it hit => hpos it (List.mem_of_mem_drop hit)
        have hls : 0 < nvSum ((it₀ :: it₁ :: rest).take si) :=
          nvSum_pos _ (hsi_def ▸ take_splitIndex_ne_nil _ _ (by simp)) hlpos
        have hrs : 0 < nvSum ((it₀ :: it₁ :: rest).drop si) :=
          nvSum_pos _ (hsi_def ▸ drop_splitIndex_ne_nil _ _ (by simp)) hrpos
        have htot : nvSum (it₀ :: it₁ :: rest) =
            nvSum ((it₀ :: it₁ :: rest).take si) +
            nvSum ((it₀ :: it₁ :: rest).drop si) := nvSum_split _ _
        set ls := nvSum ((it₀ :: it₁ :: rest).take si) with hls_def
        set rs := nvSum ((it₀ :: it₁ :: rest).drop si) with hrs_def
        have hfrac1 : 0 < ls / (ls + rs) := div_pos hls (by linarith)
        have hfrac2 : ls / (ls + rs) < 1 := by
          rw [div_lt_one (by linarith)]; linarith
        rw [htot] at hr
        by_cases hfm : fm = true
        · rw [if_pos hfm] at hr
          have hlh1 : 0 < h * (ls / (ls + rs)) := mul_pos hh hfrac1
          have hlh2 : h * (ls / (ls + rs)) < h := by nlinarith
          exact inBox_vstack hls hrs hh
            (ih _ hlt1 hlpos _ _ _ _ fm hw hlh1)
            (ih _ hlt2 hrpos _ _ _ _ fm hw (by linarith)) r hr
        · rw [if_neg hfm] at hr
          by_cases hasp : 7 / 10 < w / h
          · rw [if_pos hasp] at hr
            have hlw1 : 0 < w * (ls / (ls + rs)) := mul_pos hw hfrac1
            have hlw2 : w * (ls / (ls + rs)) < w := by nlinarith
            exact inBox_hstack hls hrs hw
              (ih _ hlt1 hlpos _ _ _ _ fm hlw1 hh)
              (ih _ hlt2 hrpos _ _ _ _ fm (by linarith) hh) r hr
          · rw [if_neg hasp] at hr
            have hlh1 : 0 < h * (ls / (ls + rs)) := mul_pos hh hfrac1
            have hlh2 : h * (ls / (ls + rs)) < h := by nlinarith
            exact inBox_vstack hls hrs hh
              (ih _ hlt1 hlpos _ _ _ _ fm hw hlh1)
              (ih _ hlt2 hrpos _ _ _ _ fm hw (by linarith)) r hr

/-- Every rectangle the mobile `slice` returns, in any mode, has strictly
positive extent and lies inside the given box, provided the weights are
strictly positive and the box is. -/
theorem mslice_inBox (items : List (NItem T)) (x y w h : ℚ) (fm : Bool)
    (hpos : ∀ it ∈ items, 0 < it.normalizedValue)
    (hw : 0 < w) (hh : 0 < h) :
    ∀ r ∈ mslice items x y w h fm, InBox x y w h r :=
  mslice_inBox_aux items.length items (le_refl _) hpos x y w h fm hw hh

theorem normalized_pos {items : List (SItem T)} {w h : ℚ}
    (hpos : ∀ it ∈ items, 0 < it.value)
    (htot : 0 < (items.map (·.value)).sum) (hw : 0 < w) (hh : 0 < h) :
    ∀ p ∈ items.map (fun it =>
        NItem.mk it.value it.data
          ((it.value / (items.map (·.value)).sum) * w * h)),
      0 < p.normalizedValue := by
  intro p hp
  simp only [List.mem_map] at hp
  obtain ⟨it, hit, rfl⟩ := hp
  exact mul_pos (mul_pos (div_pos (hpos it hit) htot) hw) hh

theorem value_sum_pos {items : List (SItem T)} (hne : items ≠ [])
    (hpos : ∀ it ∈ items, 0 < it.value) :
    0 < (items.map (·.value)).sum := by
  apply List.sum_pos
  · intro q hq
    simp only [List.mem_map] at hq
    obtain ⟨it, hit, rfl⟩ := hq
    exact hpos it hit
  · simpa using hne

/-- C2 (amended): for item lists with strictly positive values and a
strictly positive bounding box, every rectangle returned by the desktop
`squarify` — and by the mobile variant in either layout mode — has strictly
positive width and height and lies inside the bounding box passed in (in
particular no width or height is negative; over the rationals no
non-finite value can arise). -/
theorem layout_rects_in_box {T : Type} (items : List (SItem T)) (x y w h : ℚ)
    (hpos : ∀ it ∈ items, 0 < it.value) (hw : 0 < w) (hh : 0 < h) :
    (∀ r ∈ squarify items x y w h, InBox x y w h r) ∧
    (∀ (fm : Bool), ∀ r ∈ msquarify items x y w h fm, InBox x y w h r) := by
  match items with
  | [] =>
    constructor
    · intro r hr
      simp [squarify] at hr
    · intro fm r hr
      simp [msquarify] at hr
  | it₀ :: rest =>
    have hne : (it₀ :: rest) ≠ [] := by simp
    have htot : 0 < ((it₀ :: rest).map (·.value)).sum := value_sum_pos hne hpos
    have hguard : ¬ ((((it₀ :: rest).map (·.value)).sum = 0) ∨
        (it₀ :: rest).length = 0) := by
      push_neg
      exact ⟨ne_of_gt htot, by simp⟩
    constructor
    · unfold squarify
      rw [if_neg hguard]
      exact slice_inBox _ x y w h (normalized_pos hpos htot hw hh) hw hh
    · intro fm
      unfold msquarify
      rw [if_neg hguard]
      exact mslice_inBox _ x y w h fm (normalized_pos hpos htot hw hh) hw hh

/-- C2 (amended) witness: the containment theorem applied to a concrete
three-item positive-value list in the box `(0, 0, 100, 100)`. -/
theorem layout_rects_in_box_witness :
    ((∀ it ∈ [SItem.mk 1 (0 : Nat), SItem.mk 2 1, SItem.mk 3 2],
        0 < it.value) ∧ (0 : ℚ) < 100 ∧ (0 : ℚ) < 100) ∧
    ((∀ r ∈ squarify [SItem.mk 1 (0 : Nat), SItem.mk 2 1, SItem.mk 3 2]
        0 0 100 100, InBox 0 0 100 100 r) ∧
      (∀ (fm : Bool),
        ∀ r ∈ msquarify [SItem.mk 1 (0 : Nat), SItem.mk 2 1, SItem.mk 3 2]
          0 0 100 100 fm, InBox 0 0 100 100 r)) :=
  ⟨⟨by decide, by norm_num, by norm_num⟩,
    layout_rects_in_box [SItem.mk 1 (0 : Nat), SItem.mk 2 1, SItem.mk 3 2]
      0 0 100 100 (by decide) (by norm_num) (by norm_num)⟩

/-- The `bestRowSize = 4` assignment of the mobile `slice` is dead code: its
condition `uniformity > 0.7 && items.length >= 6` implies the condition
`uniformity > 0.5 && items.length >= 4` that is tested first, so the
`else if` arm can never be reached and `bestRowSize` is never 4. -/
theorem bestRowSize_ne_four (unif : ℚ) (len : Nat) :
    bestRowSize unif len ≠ 4 := by
  unfold bestRowSize
  by_cases h1 : 1 / 2 < unif ∧ 4 ≤ len
  · rw [if_pos h1]; omega
  · rw [if_neg h1, if_neg]
    · omega
    · rintro ⟨ha, hb⟩
      exact h1 ⟨by linarith, by omega⟩

/-- C3: the mobile row-packing layout evaluated at six items of equal value
(so the min/max ratio is `1 > 0.7` with `6 ≥ 6` items).  Because the source
tests `uniformity > 0.5 && items.length >= 4` first, `bestRowSize` is `3`
(the `bestRowSize = 4` arm is unreachable), so the six items are packed
into two rows of three — not a row of four followed by a row of two as the
claim states.  Each row has height `50` and three rectangles of width
`100/3` laid left to right (each row's widths do sum to the full box width
`100`, and row heights are proportional to the rows' value shares). -/
theorem mobile_six_equal_rows_of_three :
    msquarify [SItem.mk 1 (0 : Nat), SItem.mk 1 1, SItem.mk 1 2,
        SItem.mk 1 3, SItem.mk 1 4, SItem.mk 1 5] 0 0 100 100 true =
      [⟨0, 0, 100/3, 50, 0⟩, ⟨100/3, 0, 100/3, 50, 1⟩,
        ⟨200/3, 0, 100/3, 50, 2⟩, ⟨0, 50, 100/3, 50, 3⟩,
        ⟨100/3, 50, 100/3, 50, 4⟩, ⟨200/3, 50, 100/3, 50, 5⟩] := by
  norm_num [msquarify, UNBudget.mslice, mobileRows, bestRowSize, qmax, qmin,
    packRows, rowsRects, rowRects, nvSum]

/-- C2 counterexample: the claim quantifies over item lists with merely
non-negative values; for the list `[{value 1}, {value 0}]` (non-negative
values) in the strictly positive box `(0, 0, 100, 100)`, `squarify` returns
a rectangle of width `0`, so not every returned rectangle has
`width > 0`. -/
theorem squarify_nonneg_zero_width :
    ¬ (∀ r ∈ squarify [SItem.mk 1 (0 : Nat), SItem.mk 0 1] 0 0 100 100,
        InBox 0 0 100 100 r) := by
  intro hall
  have hev : squarify [SItem.mk 1 (0 : Nat), SItem.mk 0 1] 0 0 100 100 =
      [DataRect.mk 0 0 100 100 0, DataRect.mk 100 0 0 100 1] := by
    norm_num [squarify, UNBudget.slice, splitIndex, splitScan, nvSum]
  rw [hev] at hall
  have h := hall (DataRect.mk 100 0 0 100 1) (by simp)
  exact absurd h.1 (by norm_num)

/-! ### Association-list (JavaScript `Map`) lemmas -/

theorem alistFind?_append_some {α : Type} {l₁ : List (String × α)}
    (l₂ : List (String × α)) {k : String} {v : α}
    (h : alistFind? l₁ k = some v) : alistFind? (l₁ ++ l₂) k = some v := by
  induction l₁ with
  | nil => simp [alistFind?] at h
  | cons p rest ih =>
    rw [List.cons_append, alistFind?] at *
    by_cases hk : p.1 = k
    · simpa [hk] using h
    · rw [if_neg hk] at h ⊢
      exact ih h

theorem alistFind?_append_none {α : Type} {l₁ : List (String × α)}
    (l₂ : List (String × α)) {k : String}
    (h : alistFind? l₁ k = none) :
    alistFind? (l₁ ++ l₂) k = alistFind? l₂ k := by
  induction l₁ with
  | nil => simp
  | cons p rest ih =>
    rw [alistFind?] at h
    by_cases hk : p.1 = k
    · rw [if_pos hk] at h; exact absurd h (by simp)
    · rw [if_neg hk] at h
      rw [List.cons_append, alistFind?, if_neg hk]
      exact ih h

theorem alistFind?_single {α : Type} (k k' : String) (v : α) :
    alistFind? [(k, v)] k' = if k = k' then some v else none := by
  simp [alistFind?]

theorem alistFind?_setIfAbsent_self {α : Type} (l : List (String × α))
    (k : String) (v : α) :
    alistFind? (alistSetIfAbsent l k v) k = some ((alistFind? l k).getD v) := by
  unfold alistSetIfAbsent
  cases h : alistFind? l k with
  | some w =>
    rw [if_pos (Option.isSome_some), h]
    rfl
  | none =>
    rw [if_neg (by simp), alistFind?_append_none _ h, alistFind?_single,
      if_pos rfl]
    rfl

theorem alistFind?_setIfAbsent_ne {α : Type} (l : List (String × α))
    (k : String) (v : α) {k' : String} (h : k' ≠ k) :
    alistFind? (alistSetIfAbsent l k v) k' = alistFind? l k' := by
  unfold alistSetIfAbsent
  by_cases hs : (alistFind? l k).isSome
  · rw [if_pos hs]
  · rw [if_neg hs]
    cases h' : alistFind? l k' with
    | some w => exact alistFind?_append_some _ h'
    | none =>
      rw [alistFind?_append_none _ h', alistFind?_single,
        if_neg (fun hc => h hc.symm)]

theorem alistFind?_update_self {α : Type} (l : List (String × α))
    (k : String) (f : α → α) :
    alistFind? (alistUpdate l k f) k = (alistFind? l k).map f := by
  induction l with
  | nil => rfl
  | cons p rest ih =>
    rcases p with ⟨k₁, v₁⟩
    by_cases hk : k₁ = k
    · subst hk
      rw [alistUpdate, List.map_cons,
        show (if ((k₁, v₁) : String × α).1 = k₁ then
            (((k₁, v₁) : String × α).1, f ((k₁, v₁) : String × α).2)
          else (k₁, v₁)) = (k₁, f v₁) from by rw [if_pos rfl],
        alistFind?, if_pos rfl, alistFind?, if_pos rfl]
      rfl
    · simp only [alistUpdate, List.map_cons] at *
      rw [if_neg (by simpa using hk), alistFind?, alistFind?,
        if_neg (by simpa using hk), if_neg (by simpa using hk)]
      exact ih

theorem alistFind?_update_ne {α : Type} (l : List (String × α))
    (k : String) (f : α → α) {k' : String} (h : k' ≠ k) :
    alistFind? (alistUpdate l k f) k' = alistFind? l k' := by
  induction l with
  | nil => rfl
  | cons p rest ih =>
    rcases p with ⟨k₁, v₁⟩
    by_cases hk : k₁ = k
    · have hk' : ¬ (k₁ = k') := fun hc => h (hc ▸ hk)
      simp only [alistUpdate, List.map_cons] at *
      rw [if_pos (by simpa using hk), alistFind?, alistFind?,
        if_neg (by simpa using hk'), if_neg (by simpa using hk')]
      exact ih
    · simp only [alistUpdate, List.map_cons] at *
      rw [if_neg (by simpa using hk), alistFind?, alistFind?]
      by_cases hk' : k₁ = k'
      · rw [if_pos (by simpa using hk'), if_pos (by simpa using hk')]
      · rw [if_neg (by simpa using hk'), if_neg (by simpa using hk')]
        exact ih

theorem alistFind?_eq_none_iff {α : Type} (l : List (String × α))
    (k : String) : alistFind? l k = none ↔ k ∉ alistKeys l := by
  induction l with
  | nil => simp [alistFind?, alistKeys]
  | cons p rest ih =>
    rw [alistFind?, alistKeys, List.map_cons, List.mem_cons]
    by_cases hk : p.1 = k
    · simp [hk]
    · simp only [if_neg hk, ih, alistKeys]
      constructor
      · rintro h1 (h2 | h2)
        · exact hk h2.symm
        · exact h1 h2
      · intro h1 h2
        exact h1 (Or.inr h2)

theorem alistFind?_isSome_iff {α : Type} (l : List (String × α))
    (k : String) : (alistFind? l k).isSome ↔ k ∈ alistKeys l := by
  rw [← Decidable.not_not (p := k ∈ alistKeys l), ← alistFind?_eq_none_iff]
  cases alistFind? l k <;> simp

theorem alistKeys_update {α : Type} (l : List (String × α)) (k : String)
    (f : α → α) : alistKeys (alistUpdate l k f) = alistKeys l := by
  induction l with
  | nil => rfl
  | cons p rest ih =>
    rw [alistUpdate, List.map_cons] at *
    by_cases hk : p.1 = k
    · simpa [hk, alistKeys] using ih
    · simpa [hk, alistKeys] using ih

theorem nodupKeys_update {α : Type} {l : List (String × α)} (k : String)
    (f : α → α) (h : NodupKeys l) : NodupKeys (alistUpdate l k f) := by
  unfold NodupKeys
  rw [alistKeys_update]
  exact h

theorem nodupKeys_setIfAbsent {α : Type} {l : List (String × α)}
    (k : String) (v : α) (h : NodupKeys l) :
    NodupKeys (alistSetIfAbsent l k v) := by
  unfold alistSetIfAbsent
  by_cases hs : (alistFind? l k).isSome
  · rw [if_pos hs]; exact h
  · rw [if_neg hs]
    have hk : k ∉ alistKeys l := by
      rw [← alistFind?_eq_none_iff, ← Option.not_isSome_iff_eq_none]
      exact fun hc => hs hc
    unfold NodupKeys alistKeys at *
    rw [List.map_append]
    simp only [List.map_cons, List.map_nil]
    rw [List.nodup_append]
    refine ⟨h, List.nodup_singleton _, ?_⟩
    intro a ha hb
    simp only [List.mem_singleton] at hb
    exact hk (hb ▸ ha)

theorem mem_alistUpdate {α : Type} {l : List (String × α)} {k : String}
    {f : α → α} {p : String × α} (h : p ∈ alistUpdate l k f) :
    p ∈ l ∨ ∃ q ∈ l, q.1 = k ∧ p = (k, f q.2) := by
  unfold alistUpdate at h
  rw [List.mem_map] at h
  obtain ⟨q, hq, hpq⟩ := h
  by_cases hk : q.1 = k
  · right
    refine ⟨q, hq, hk, ?_⟩
    rw [if_pos hk] at hpq
    rw [← hpq, hk]
  · left
    rw [if_neg hk] at hpq
    rw [← hpq]
    exact hq

theorem mem_alistSetIfAbsent {α : Type} {l : List (String × α)} {k : String}
    {v : α} {p : String × α} (h : p ∈ alistSetIfAbsent l k v) :
    p ∈ l ∨ p = (k, v) := by
  unfold alistSetIfAbsent at h
  by_cases hs : (alistFind? l k).isSome
  · rw [if_pos hs] at h; exact Or.inl h
  · rw [if_neg hs, List.mem_append, List.mem_singleton] at h
    exact h

theorem alistFind?_of_mem_nodup {α : Type} {l : List (String × α)}
    {k : String} {v : α} (hn : NodupKeys l) (h : (k, v) ∈ l) :
    alistFind? l k = some v := by
  induction l with
  | nil => simp at h
  | cons p rest ih =>
    unfold NodupKeys alistKeys at hn
    rw [List.map_cons, List.nodup_cons] at hn
    rw [List.mem_cons] at h
    rw [alistFind?]
    rcases h with h | h
    · rw [← h]
      simp
    · have hk : p.1 ≠ k := by
        intro hc
        exact hn.1 (hc ▸ (List.mem_map.mpr ⟨(k, v), h, rfl⟩))
      rw [if_neg hk]
      exact ih hn.2 h

theorem mem_of_alistFind? {α : Type} {l : List (String × α)} {k : String}
    {v : α} (h : alistFind? l k = some v) : (k, v) ∈ l := by
  induction l with
  | nil => simp [alistFind?] at h
  | cons p rest ih =>
    rcases p with ⟨k₁, v₁⟩
    rw [alistFind?] at h
    by_cases hk : k₁ = k
    · rw [if_pos (by simpa using hk)] at h
      have hv : v₁ = v := by simpa using h
      rw [List.mem_cons]
      left
      rw [hk, hv]
    · rw [if_neg (by simpa using hk)] at h
      exact List.mem_cons_of_mem _ (ih h)

/-! ### Characterizing the aggregator's `partMap` -/

theorem entitiesAt_pushEntity (m : List (String × PartData))
    (pk sk pn sn : String) (e : TreemapEntity) (pk' sk' : String) :
    entitiesAt (pushEntity m pk sk pn sn e) pk' sk' =
      if pk' = pk ∧ sk' = sk then entitiesAt m pk sk ++ [e]
      else entitiesAt m pk' sk' := by
  unfold pushEntity entitiesAt
  by_cases hp : pk' = pk
  · subst hp
    rw [alistFind?_update_self, alistFind?_setIfAbsent_self]
    cases hm : alistFind? m pk' with
    | none =>
      simp only [Option.getD_none, Option.map_some, Option.map_some',
        Option.some_bind, Option.none_bind]
      by_cases hs : sk' = sk
      · subst hs
        rw [alistFind?_update_self, alistFind?_setIfAbsent_self]
        simp [alistFind?]
      · rw [alistFind?_update_ne _ _ _ hs, alistFind?_setIfAbsent_ne _ _ _ hs]
        simp [alistFind?, hs]
    | some pd =>
      simp only [Option.getD_some, Option.map_some, Option.map_some',
        Option.some_bind]
      by_cases hs : sk' = sk
      · subst hs
        rw [alistFind?_update_self, alistFind?_setIfAbsent_self]
        cases hsd : alistFind? pd.sections sk' with
        | none => simp
        | some sd => simp
      · rw [alistFind?_update_ne _ _ _ hs, alistFind?_setIfAbsent_ne _ _ _ hs]
        simp [hs]
  · rw [alistFind?_update_ne _ _ _ hp, alistFind?_setIfAbsent_ne _ _ _ hp,
      if_neg (fun hc => hp hc.1)]

theorem entitiesAt_addEntityRow (m : List (String × PartData))
    (b : BudgetItem) (pk sk : String) :
    entitiesAt (addEntityRow m b) pk sk =
      if 0 < b.revised2026 ∧ b.Part = pk ∧ secKey b = sk then
        entitiesAt m pk sk ++ [mkEntityLeaf b]
      else entitiesAt m pk sk := by
  unfold addEntityRow
  by_cases hb : b.revised2026 ≤ 0
  · rw [if_pos hb, if_neg (fun hc => absurd hc.1 (not_lt.mpr hb))]
  · rw [if_neg hb, entitiesAt_pushEntity]
    by_cases hc : pk = b.Part ∧ sk = secKey b
    · rw [if_pos hc, if_pos ⟨lt_of_not_le hb, hc.1.symm, hc.2.symm⟩,
        hc.1, hc.2]
    · rw [if_neg hc, if_neg (fun hc2 => hc ⟨hc2.2.1.symm, hc2.2.2.symm⟩)]

theorem entitiesAt_addSectionRow (s : List String)
    (m : List (String × PartData)) (b : BudgetItem) (pk sk : String) :
    entitiesAt (addSectionRow s m b) pk sk =
      if 0 < b.revised2026 ∧ b.Part = pk ∧ secKey b = sk ∧
          (b.Part ++ "-" ++ secKey b) ∉ s then
        entitiesAt m pk sk ++ [mkSectionLeaf b]
      else entitiesAt m pk sk := by
  unfold addSectionRow
  by_cases hb : b.revised2026 ≤ 0
  · rw [if_pos hb, if_neg (fun hc => absurd hc.1 (not_lt.mpr hb))]
  · rw [if_neg hb]
    by_cases hsk : (b.Part ++ "-" ++ secKey b) ∈ s
    · rw [if_pos hsk, if_neg (fun hc => hc.2.2.2 hsk)]
    · rw [if_neg hsk, entitiesAt_pushEntity]
      by_cases hc : pk = b.Part ∧ sk = secKey b
      · rw [if_pos hc,
          if_pos ⟨lt_of_not_le hb, hc.1.symm, hc.2.symm, hsk⟩, hc.1, hc.2]
      · rw [if_neg hc, if_neg (fun hc2 => hc ⟨hc2.2.1.symm, hc2.2.2.1.symm⟩)]

theorem entitiesAt_foldl_addEntityRow (rows : List BudgetItem) :
    ∀ (m : List (String × PartData)) (pk sk : String),
      entitiesAt (rows.foldl addEntityRow m) pk sk =
        entitiesAt m pk sk ++
          (rows.filter (entLeafFor pk sk)).map mkEntityLeaf := by
  induction rows with
  | nil => intro m pk sk; simp
  | cons b rows ih =>
    intro m pk sk
    rw [List.foldl_cons, ih, entitiesAt_addEntityRow, List.filter_cons]
    by_cases hc : 0 < b.revised2026 ∧ b.Part = pk ∧ secKey b = sk
    · rw [if_pos hc]
      have hf : entLeafFor pk sk b = true := by
        unfold entLeafFor
        simp only [Bool.and_eq_true, decide_eq_true_eq, beq_iff_eq]
        exact ⟨⟨hc.1, hc.2.1⟩, hc.2.2⟩
      rw [if_pos hf, List.map_cons]
      simp
    · rw [if_neg hc]
      have hf : ¬ (entLeafFor pk sk b = true) := by
        unfold entLeafFor
        simp only [Bool.and_eq_true, decide_eq_true_eq, beq_iff_eq]
        intro hcc
        exact hc ⟨hcc.1.1, hcc.1.2, hcc.2⟩
      rw [if_neg hf]

theorem entitiesAt_foldl_addSectionRow (s : List String)
    (rows : List BudgetItem) :
    ∀ (m : List (String × PartData)) (pk sk : String),
      entitiesAt (rows.foldl (addSectionRow s) m) pk sk =
        entitiesAt m pk sk ++
          (rows.filter (secLeafFor s pk sk)).map mkSectionLeaf := by
  induction rows with
  | nil => intro m pk sk; simp
  | cons b rows ih =>
    intro m pk sk
    rw [List.foldl_cons, ih, entitiesAt_addSectionRow, List.filter_cons]
    by_cases hc : 0 < b.revised2026 ∧ b.Part = pk ∧ secKey b = sk ∧
        (b.Part ++ "-" ++ secKey b) ∉ s
    · rw [if_pos hc]
      have hf : secLeafFor s pk sk b = true := by
        unfold secLeafFor
        simp only [Bool.and_eq_true, decide_eq_true_eq, beq_iff_eq,
          Bool.not_eq_true', decide_eq_false_iff_not]
        exact ⟨⟨⟨hc.1, hc.2.1⟩, hc.2.2.1⟩, hc.2.2.2⟩
      rw [if_pos hf, List.map_cons]
      simp
    · rw [if_neg hc]
      have hf : ¬ (secLeafFor s pk sk b = true) := by
        unfold secLeafFor
        simp only [Bool.and_eq_true, decide_eq_true_eq, beq_iff_eq,
          Bool.not_eq_true', decide_eq_false_iff_not]
        intro hcc
        exact hc ⟨hcc.1.1.1, hcc.1.1.2, hcc.1.2, hcc.2⟩
      rw [if_neg hf]

theorem entitiesAt_nil (pk sk : String) :
    entitiesAt ([] : List (String × PartData)) pk sk = [] := rfl

/-- The central characterization of the aggregator's intermediate map: the
entity list stored at `(pk, sk)` is exactly the qualifying `entity_total`
rows with those keys (in input order), followed by the qualifying,
non-skipped `section_total` rows with those keys (in input order), mapped
to their leaves. -/
theorem entitiesAt_buildPartMap (data : List BudgetItem) (pk sk : String) :
    entitiesAt (buildPartMap data) pk sk =
      ((data.filter (fun b => b.row_type == "entity_total")).filter
        (entLeafFor pk sk)).map mkEntityLeaf ++
      ((data.filter (fun b => b.row_type == "section_total")).filter
        (secLeafFor (swe data) pk sk)).map mkSectionLeaf := by
  unfold buildPartMap
  rw [entitiesAt_foldl_addSectionRow, entitiesAt_foldl_addEntityRow,
    entitiesAt_nil, List.nil_append]

theorem mem_swe (data : List BudgetItem) (x : String) :
    x ∈ swe data ↔ ∃ b ∈ data, b.row_type = "entity_total" ∧
      0 < b.revised2026 ∧ b.Part ++ "-" ++ secKey b = x := by
  unfold swe
  rw [List.mem_map]
  constructor
  · rintro ⟨b, hb, rfl⟩
    rw [List.mem_filter, Bool.and_eq_true, decide_eq_true_eq,
      beq_iff_eq] at hb
    exact ⟨b, hb.1, hb.2.1, hb.2.2, rfl⟩
  · rintro ⟨b, hb, hrt, hrev, hkey⟩
    refine ⟨b, ?_, hkey⟩
    rw [List.mem_filter, Bool.and_eq_true, decide_eq_true_eq, beq_iff_eq]
    exact ⟨hb, hrt, hrev⟩

/-- C4 counterexample: the claim's \"(Part, Section) pair\" reading fails
because the aggregator keys `sectionsWithEntities` by the concatenated
string `` `${Part}-${Section}` ``, which is not injective in the pair.
With an entity row for Part `P-A`, Section `x` and a section row for Part
`P`, Section `A-x` (both composite keys are `P-A-x`), the section row has
`revised_2026 = 3 > 0` and no qualifying entity row exists for the pair
`(P, A-x)`, yet no section-as-entity leaf is added — the section row is
skipped because of the colliding composite key. -/
theorem section_leaf_pair_counterexample :
    ¬ ((∃ e ∈ entitiesAt (buildPartMap
        [⟨"entity_total", "P-A", "PN", some "x", none, some "E", none, none,
          none, none, 5⟩,
         ⟨"section_total", "P", "PN", some "A-x", some "SN", none, none, none,
          none, none, 3⟩]) "P" "A-x",
        e.budgetItem.row_type = "section_total")
      ↔ ((∃ r ∈ [(⟨"entity_total", "P-A", "PN", some "x", none, some "E",
            none, none, none, none, 5⟩ : BudgetItem),
          ⟨"section_total", "P", "PN", some "A-x", some "SN", none, none,
            none, none, none, 3⟩],
            r.row_type = "section_total" ∧ r.Part = "P" ∧ secKey r = "A-x" ∧
              0 < r.revised2026) ∧
         ¬ (∃ b ∈ [(⟨"entity_total", "P-A", "PN", some "x", none, some "E",
            none, none, none, none, 5⟩ : BudgetItem),
          ⟨"section_total", "P", "PN", some "A-x", some "SN", none, none,
            none, none, none, 3⟩],
            b.row_type = "entity_total" ∧ 0 < b.revised2026 ∧
              b.Part = "P" ∧ secKey b = "A-x"))) := by
  decide

/-- C4 (amended): for every input row list and every `(Part, Section)` key
pair, the aggregator's tree holds a synthetic section-as-entity leaf at
that pair if and only if some `section_total` row with those keys has
`revised_2026 > 0` and no qualifying entity row (an `entity_total` row
with `revised_2026 > 0`) has the same *composite id*
`` `${Part}-${Section}` `` — equality of composite ids rather than of key
pairs, which coincide whenever Part identifiers contain no hyphen, as all
canonical `Part I` … `Part XIV` identifiers do.  In particular, when a
qualifying entity row exists for the section, its `section_total` row
contributes no leaf. -/
theorem section_as_entity_leaf_iff (data : List BudgetItem) (pk sk : String) :
    (∃ e ∈ entitiesAt (buildPartMap data) pk sk,
      e.budgetItem.row_type = "section_total") ↔
    ((∃ r ∈ data, r.row_type = "section_total" ∧ r.Part = pk ∧
        secKey r = sk ∧ 0 < r.revised2026) ∧
     ¬ (∃ b ∈ data, b.row_type = "entity_total" ∧ 0 < b.revised2026 ∧
        b.Part ++ "-" ++ secKey b = pk ++ "-" ++ sk)) := by
  rw [entitiesAt_buildPartMap]
  constructor
  · rintro ⟨e, he, hrt⟩
    rcases List.mem_append.mp he with he | he
    · exfalso
      rw [List.mem_map] at he
      obtain ⟨b, hb, rfl⟩ := he
      rw [List.mem_filter] at hb
      have hb1 := hb.1
      rw [List.mem_filter, beq_iff_eq] at hb1
      have : b.row_type = "section_total" := hrt
      rw [hb1.2] at this
      exact absurd this (by decide)
    · rw [List.mem_map] at he
      obtain ⟨b, hb, rfl⟩ := he
      rw [List.mem_filter] at hb
      have hb1 := hb.1
      rw [List.mem_filter, beq_iff_eq] at hb1
      have hb2 := hb.2
      unfold secLeafFor at hb2
      rw [Bool.and_eq_true, Bool.and_eq_true, Bool.and_eq_true,
        decide_eq_true_eq, beq_iff_eq, beq_iff_eq, Bool.not_eq_true',
        decide_eq_false_iff_not] at hb2
      obtain ⟨⟨⟨hrev, hpk⟩, hsk⟩, hnsw⟩ := hb2
      refine ⟨⟨b, hb1.1, hb1.2, hpk, hsk, hrev⟩, ?_⟩
      rintro ⟨b', hb', hrt', hrev', hkey'⟩
      apply hnsw
      rw [hpk, hsk]
      rw [← hkey']
      exact (mem_swe data _).mpr ⟨b', hb', hrt', hrev', rfl⟩
  · rintro ⟨⟨r, hr, hrt, hpk, hsk, hrev⟩, hno⟩
    refine ⟨mkSectionLeaf r, ?_, hrt⟩
    apply List.mem_append.mpr
    right
    rw [List.mem_map]
    refine ⟨r, ?_, rfl⟩
    rw [List.mem_filter]
    constructor
    · rw [List.mem_filter, beq_iff_eq]
      exact ⟨hr, hrt⟩
    · unfold secLeafFor
      rw [Bool.and_eq_true, Bool.and_eq_true, Bool.and_eq_true,
        decide_eq_true_eq, beq_iff_eq, beq_iff_eq, Bool.not_eq_true',
        decide_eq_false_iff_not]
      refine ⟨⟨⟨hrev, hpk⟩, hsk⟩, ?_⟩
      intro hsw
      rw [hpk, hsk] at hsw
      obtain ⟨b', hb', hrt', hrev', hkey'⟩ := (mem_swe data _).mp hsw
      exact hno ⟨b', hb', hrt', hrev', hkey'⟩

theorem pushEntity_wf {m : List (String × PartData)} (pk sk pn sn : String)
    (e : TreemapEntity) (h : WFmap m) : WFmap (pushEntity m pk sk pn sn e) := by
  obtain ⟨h1, h2⟩ := h
  constructor
  · exact nodupKeys_update _ _ (nodupKeys_setIfAbsent _ _ h1)
  · intro p hp
    rcases mem_alistUpdate hp with hp | ⟨q, hq, hqk, rfl⟩
    · rcases mem_alistSetIfAbsent hp with hp | rfl
      · exact h2 p hp
      · exact List.nodup_nil
    · rcases mem_alistSetIfAbsent hq with hq | rfl
      · show NodupKeys (alistUpdate (alistSetIfAbsent q.2.sections sk
          ⟨sn, []⟩) sk (fun sd => { sd with entities := sd.entities ++ [e] }))
        exact nodupKeys_update _ _ (nodupKeys_setIfAbsent _ _ (h2 q hq))
      · show NodupKeys (alistUpdate (alistSetIfAbsent
          ([] : List (String × SectionData)) sk ⟨sn, []⟩) sk
          (fun sd => { sd with entities := sd.entities ++ [e] }))
        exact nodupKeys_update _ _ (nodupKeys_setIfAbsent _ _
          (by simp [NodupKeys, alistKeys]))

theorem addEntityRow_wf {m : List (String × PartData)} (b : BudgetItem)
    (h : WFmap m) : WFmap (addEntityRow m b) := by
  unfold addEntityRow
  by_cases hb : b.revised2026 ≤ 0
  · rw [if_pos hb]; exact h
  · rw [if_neg hb]; exact pushEntity_wf _ _ _ _ _ h

theorem addSectionRow_wf (s : List String) {m : List (String × PartData)}
    (b : BudgetItem) (h : WFmap m) : WFmap (addSectionRow s m b) := by
  unfold addSectionRow
  by_cases hb : b.revised2026 ≤ 0
  · rw [if_pos hb]; exact h
  · rw [if_neg hb]
    by_cases hsk : (b.Part ++ "-" ++ secKey b) ∈ s
    · rw [if_pos hsk]; exact h
    · rw [if_neg hsk]; exact pushEntity_wf _ _ _ _ _ h

theorem foldl_wf {step : List (String × PartData) → BudgetItem →
    List (String × PartData)}
    (hstep : ∀ m b, WFmap m → WFmap (step m b)) :
    ∀ (rows : List BudgetItem) (m : List (String × PartData)),
      WFmap m → WFmap (rows.foldl step m) := by
  intro rows
  induction rows with
  | nil => intro m h; exact h
  | cons b rows ih => intro m h; exact ih _ (hstep m b h)

theorem buildPartMap_wf (data : List BudgetItem) : WFmap (buildPartMap data) := by
  unfold buildPartMap
  exact foldl_wf (fun m b => addSectionRow_wf _ b) _ _
    (foldl_wf (fun m b => addEntityRow_wf b) _ _ ⟨List.nodup_nil, by simp⟩)

theorem sections_entities_eq {data : List BudgetItem} {pk : String}
    {pd : PartData} (hf : alistFind? (buildPartMap data) pk = some pd) :
    ∀ q ∈ pd.sections, q.2.entities = entitiesAt (buildPartMap data) pk q.1 := by
  intro q hq
  have hwf := buildPartMap_wf data
  have hsec : NodupKeys pd.sections :=
    hwf.2 (pk, pd) (mem_of_alistFind? hf)
  have hfs : alistFind? pd.sections q.1 = some q.2 :=
    alistFind?_of_mem_nodup hsec (by simpa using hq)
  unfold entitiesAt
  rw [hf, Option.some_bind, hfs]

theorem entitiesAt_budget_eq (data : List BudgetItem) (pk sk : String) :
    ∀ e ∈ entitiesAt (buildPartMap data) pk sk,
      e.budget = e.budgetItem.revised2026 := by
  intro e he
  rw [entitiesAt_buildPartMap] at he
  rcases List.mem_append.mp he with he | he <;>
    · rw [List.mem_map] at he
      obtain ⟨b, _, rfl⟩ := he
      rfl

/-- C5: in the aggregator's tree, each section's `totalBudget` is the sum
of its retained entity leaves' budgets (each leaf's budget being its source
row's `revised_2026`), each part's `totalBudget` is the sum of its
sections' totals, a part appears only with strictly positive total, and the
part's `approved2025` is read directly from the matching `part_total` row
(`0` when absent or null). -/
theorem buildTree_totals (data : List BudgetItem) :
    ∀ p ∈ buildTree data,
      p.totalBudget = (p.sections.map (·.totalBudget)).sum ∧
      (∀ s ∈ p.sections, s.totalBudget = (s.entities.map (·.budget)).sum) ∧
      (∀ s ∈ p.sections, ∀ e ∈ s.entities,
        e.budget = e.budgetItem.revised2026) ∧
      0 < p.totalBudget ∧
      p.approved2025 =
        ((alistFind? (partTotalsMap data) p.part).bind (·.approved2025)).getD 0 := by
  intro p hp
  unfold buildTree at hp
  by_cases hd : data.length = 0
  · rw [if_pos hd] at hp
    simp at hp
  · rw [if_neg hd] at hp
    rw [List.mem_filterMap] at hp
    obtain ⟨pk, _, hpk⟩ := hp
    cases hf : alistFind? (buildPartMap data) pk with
    | none => rw [hf] at hpk; simp at hpk
    | some pd =>
      rw [hf] at hpk
      simp only at hpk
      by_cases htot : 0 < ((buildSections pd).map (·.totalBudget)).sum
      · rw [if_pos htot, Option.some_inj] at hpk
        subst hpk
        refine ⟨rfl, ?_, ?_, htot, rfl⟩
        · intro s hs
          unfold buildSections at hs
          rw [List.mem_map] at hs
          obtain ⟨q, _, rfl⟩ := hs
          rfl
        · intro s hs e he
          unfold buildSections at hs
          rw [List.mem_map] at hs
          obtain ⟨q, hq, rfl⟩ := hs
          simp only at he
          rw [sections_entities_eq hf q hq] at he
          exact entitiesAt_budget_eq data pk q.1 e he
      · rw [if_neg htot] at hpk
        simp at hpk

theorem buildTree_single_entity_eval : UNBudget.buildTree
    [⟨"entity_total", "Part I", "PN", some "1", some "SN", some "E", none,
      none, none, none, 5⟩] =
    [⟨"Part I", "PN",
      [⟨"1", "SN",
        [⟨"Part I-1-E", "E", "Part I", "PN", "1", "SN", 5,
          ⟨"entity_total", "Part I", "PN", some "1", some "SN", some "E",
            none, none, none, none, 5⟩⟩], 5⟩], 5, "", 0, 0⟩] := by
  norm_num [buildTree, partTotalsMap, buildPartMap, addEntityRow, pushEntity,
    alistSet, alistSetIfAbsent, alistUpdate, alistFind?, mkEntityLeaf,
    buildSections, entSum, partOrder, swe, secKey, strOr, strOr2, tmpl,
    entitiesAt, List.filterMap]
  decide

/-- C5 witness: the totals theorem applied to the tree built from one
qualifying entity row. -/
theorem buildTree_totals_witness :
    ((⟨"Part I", "PN",
      [⟨"1", "SN",
        [⟨"Part I-1-E", "E", "Part I", "PN", "1", "SN", 5,
          ⟨"entity_total", "Part I", "PN", some "1", some "SN", some "E",
            none, none, none, none, 5⟩⟩], 5⟩], 5, "", 0, 0⟩ : TreemapPart) ∈
      buildTree [⟨"entity_total", "Part I", "PN", some "1", some "SN",
        some "E", none, none, none, none, 5⟩]) ∧
    ((⟨"Part I", "PN",
      [⟨"1", "SN",
        [⟨"Part I-1-E", "E", "Part I", "PN", "1", "SN", 5,
          ⟨"entity_total", "Part I", "PN", some "1", some "SN", some "E",
            none, none, none, none, 5⟩⟩], 5⟩], 5, "", 0, 0⟩ :
        TreemapPart).totalBudget = 5 ∧
      (0 : ℚ) < 5) := by
  have hmem : (⟨"Part I", "PN",
      [⟨"1", "SN",
        [⟨"Part I-1-E", "E", "Part I", "PN", "1", "SN", 5,
          ⟨"entity_total", "Part I", "PN", some "1", some "SN", some "E",
            none, none, none, none, 5⟩⟩], 5⟩], 5, "", 0, 0⟩ : TreemapPart) ∈
      buildTree [⟨"entity_total", "Part I", "PN", some "1", some "SN",
        some "E", none, none, none, none, 5⟩] := by
    rw [buildTree_single_entity_eval]
    exact List.mem_singleton_self _
  have h := buildTree_totals
    [⟨"entity_total", "Part I", "PN", some "1", some "SN", some "E", none,
      none, none, none, 5⟩] _ hmem
  exact ⟨hmem, rfl, h.2.2.2.1⟩

/-! ### Input-order independence of the aggregator -/

theorem pushEntity_SecNE {m : List (String × PartData)}
    (pk sk pn sn : String) (e : TreemapEntity) (h : SecNE m) :
    SecNE (pushEntity m pk sk pn sn e) := by
  intro pk' sk' hex
  rw [entitiesAt_pushEntity]
  by_cases hc : pk' = pk ∧ sk' = sk
  · rw [if_pos hc]; simp
  · rw [if_neg hc]
    apply h pk' sk'
    unfold pushEntity at hex
    by_cases hp : pk' = pk
    · subst hp
      have hs : ¬ sk' = sk := fun hss => hc ⟨rfl, hss⟩
      rw [alistFind?_update_self, alistFind?_setIfAbsent_self] at hex
      simp only [Option.map_some', Option.some_bind] at hex
      rw [alistFind?_update_ne _ _ _ hs, alistFind?_setIfAbsent_ne _ _ _ hs]
        at hex
      cases hm : alistFind? m pk' with
      | none =>
        rw [hm] at hex
        simp [alistFind?] at hex
      | some pd =>
        rw [hm] at hex
        simpa using hex
    · rw [alistFind?_update_ne _ _ _ hp, alistFind?_setIfAbsent_ne _ _ _ hp]
        at hex
      exact hex

theorem alistSetIfAbsent_ne_nil {α : Type} (l : List (String × α))
    (k : String) (v : α) : alistSetIfAbsent l k v ≠ [] := by
  unfold alistSetIfAbsent
  by_cases hs : (alistFind? l k).isSome
  · rw [if_pos hs]
    intro hc
    subst hc
    simp [alistFind?] at hs
  · rw [if_neg hs]
    simp

theorem alistUpdate_ne_nil {α : Type} {l : List (String × α)} (k : String)
    (f : α → α) (h : l ≠ []) : alistUpdate l k f ≠ [] := by
  unfold alistUpdate
  simpa using h

theorem pushEntity_PartNE {m : List (String × PartData)}
    (pk sk pn sn : String) (e : TreemapEntity) (h : PartNE m) :
    PartNE (pushEntity m pk sk pn sn e) := by
  intro pk' pd' hf'
  unfold pushEntity at hf'
  by_cases hp : pk' = pk
  · subst hp
    rw [alistFind?_update_self, alistFind?_setIfAbsent_self] at hf'
    simp only [Option.map_some', Option.some_inj] at hf'
    rw [← hf']
    show alistUpdate (alistSetIfAbsent
      ((alistFind? m pk').getD ⟨pn, []⟩).sections sk ⟨sn, []⟩) sk
      (fun sd => { sd with entities := sd.entities ++ [e] }) ≠ []
    exact alistUpdate_ne_nil _ _ (alistSetIfAbsent_ne_nil _ _ _)
  · rw [alistFind?_update_ne _ _ _ hp, alistFind?_setIfAbsent_ne _ _ _ hp]
      at hf'
    exact h pk' pd' hf'

theorem addEntityRow_SecNE {m : List (String × PartData)} (b : BudgetItem)
    (h : SecNE m) : SecNE (addEntityRow m b) := by
  unfold addEntityRow
  by_cases hb : b.revised2026 ≤ 0
  · rw [if_pos hb]; exact h
  · rw [if_neg hb]; exact pushEntity_SecNE _ _ _ _ _ h

theorem addSectionRow_SecNE (s : List String)
    {m : List (String × PartData)} (b : BudgetItem) (h : SecNE m) :
    SecNE (addSectionRow s m b) := by
  unfold addSectionRow
  by_cases hb : b.revised2026 ≤ 0
  · rw [if_pos hb]; exact h
  · rw [if_neg hb]
    by_cases hsk : (b.Part ++ "-" ++ secKey b) ∈ s
    · rw [if_pos hsk]; exact h
    · rw [if_neg hsk]; exact pushEntity_SecNE _ _ _ _ _ h

theorem addEntityRow_PartNE {m : List (String × PartData)} (b : BudgetItem)
    (h : PartNE m) : PartNE (addEntityRow m b) := by
  unfold addEntityRow
  by_cases hb : b.revised2026 ≤ 0
  · rw [if_pos hb]; exact h
  · rw [if_neg hb]; exact pushEntity_PartNE _ _ _ _ _ h

theorem addSectionRow_PartNE (s : List String)
    {m : List (String × PartData)} (b : BudgetItem) (h : PartNE m) :
    PartNE (addSectionRow s m b) := by
  unfold addSectionRow
  by_cases hb : b.revised2026 ≤ 0
  · rw [if_pos hb]; exact h
  · rw [if_neg hb]
    by_cases hsk : (b.Part ++ "-" ++ secKey b) ∈ s
    · rw [if_pos hsk]; exact h
    · rw [if_neg hsk]; exact pushEntity_PartNE _ _ _ _ _ h

theorem foldl_pres {P : List (String × PartData) → Prop}
    {step : List (String × PartData) → BudgetItem →
      List (String × PartData)}
    (hstep : ∀ m b, P m → P (step m b)) :
    ∀ (rows : List BudgetItem) (m : List (String × PartData)),
      P m → P (rows.foldl step m) := by
  intro rows
  induction rows with
  | nil => intro m h; exact h
  | cons b rows ih => intro m h; exact ih _ (hstep m b h)

theorem buildPartMap_SecNE (data : List BudgetItem) :
    SecNE (buildPartMap data) := by
  unfold buildPartMap
  apply foldl_pres (fun m b => addSectionRow_SecNE _ b)
  apply foldl_pres (fun m b => addEntityRow_SecNE b)
  intro pk sk hex
  simp [alistFind?] at hex

theorem buildPartMap_PartNE (data : List BudgetItem) :
    PartNE (buildPartMap data) := by
  unfold buildPartMap
  apply foldl_pres (fun m b => addSectionRow_PartNE _ b)
  apply foldl_pres (fun m b => addEntityRow_PartNE b)
  intro pk pd hf
  simp [alistFind?] at hf

theorem mem_sectionKeys_iff {data : List BudgetItem} {pk : String}
    {pd : PartData} (hf : alistFind? (buildPartMap data) pk = some pd)
    (sk : String) :
    sk ∈ alistKeys pd.sections ↔ entitiesAt (buildPartMap data) pk sk ≠ [] := by
  rw [← alistFind?_isSome_iff]
  constructor
  · intro h
    apply buildPartMap_SecNE data pk sk
    rw [hf, Option.some_bind]
    exact h
  · intro h
    cases hcase : alistFind? pd.sections sk with
    | some sd => rfl
    | none =>
      exfalso
      apply h
      unfold entitiesAt
      rw [hf, Option.some_bind, hcase]

theorem partExists_iff (data : List BudgetItem) (pk : String) :
    (alistFind? (buildPartMap data) pk).isSome = true ↔
      ∃ sk, entitiesAt (buildPartMap data) pk sk ≠ [] := by
  constructor
  · intro h
    rw [Option.isSome_iff_exists] at h
    obtain ⟨pd, hf⟩ := h
    have hne : pd.sections ≠ [] := buildPartMap_PartNE data pk pd hf
    obtain ⟨q, hq⟩ := List.exists_mem_of_ne_nil _ hne
    refine ⟨q.1, ?_⟩
    rw [← mem_sectionKeys_iff hf]
    exact List.mem_map.mpr ⟨q, hq, rfl⟩
  · rintro ⟨sk, h⟩
    cases hf : alistFind? (buildPartMap data) pk with
    | none =>
      exfalso
      apply h
      unfold entitiesAt
      rw [hf, Option.none_bind]
    | some pd => rfl

theorem swe_perm {d d' : List BudgetItem} (h : d.Perm d') :
    (swe d).Perm (swe d') := by
  unfold swe
  exact (h.filter _).map _

theorem secLeafFor_congr {d d' : List BudgetItem} (h : d.Perm d')
    (pk sk : String) (b : BudgetItem) :
    secLeafFor (swe d) pk sk b = secLeafFor (swe d') pk sk b := by
  unfold secLeafFor
  have hm : decide ((b.Part ++ "-" ++ secKey b) ∈ swe d) =
      decide ((b.Part ++ "-" ++ secKey b) ∈ swe d') :=
    decide_eq_decide.mpr ((swe_perm h).mem_iff)
  rw [hm]

theorem entitiesAt_perm {d d' : List BudgetItem} (h : d.Perm d')
    (pk sk : String) :
    (entitiesAt (buildPartMap d) pk sk).Perm
      (entitiesAt (buildPartMap d') pk sk) := by
  rw [entitiesAt_buildPartMap, entitiesAt_buildPartMap]
  apply List.Perm.append
  · exact ((h.filter _).filter _).map _
  · have hcongr : (d'.filter (fun b => b.row_type == "section_total")).filter
        (secLeafFor (swe d') pk sk) =
        (d'.filter (fun b => b.row_type == "section_total")).filter
          (secLeafFor (swe d) pk sk) :=
      List.filter_congr (fun b _ => (secLeafFor_congr h pk sk b).symm)
    rw [hcongr]
    exact ((h.filter _).filter _).map _

theorem entitiesAt_ne_nil_perm {d d' : List BudgetItem} (h : d.Perm d')
    (pk sk : String) :
    (entitiesAt (buildPartMap d) pk sk ≠ []) ↔
      (entitiesAt (buildPartMap d') pk sk ≠ []) := by
  have hp := entitiesAt_perm h pk sk
  constructor
  · intro hne hc
    exact hne (List.Perm.eq_nil (hc ▸ hp))
  · intro hne hc
    exact hne (List.Perm.eq_nil (hc ▸ hp.symm))

theorem partTotal_eq_keys {data : List BudgetItem} {pk : String}
    {pd : PartData} (hf : alistFind? (buildPartMap data) pk = some pd) :
    ((buildSections pd).map (·.totalBudget)).sum =
    ((alistKeys pd.sections).map
      (fun sk => entSum (entitiesAt (buildPartMap data) pk sk))).sum := by
  unfold buildSections alistKeys
  rw [List.map_map, List.map_map]
  apply congrArg List.sum
  apply List.map_congr_left
  intro q hq
  simp only [Function.comp]
  rw [sections_entities_eq hf q hq]

theorem partTotal_perm {d d' : List BudgetItem} (h : d.Perm d')
    {pk : String} {pd pd' : PartData}
    (hf : alistFind? (buildPartMap d) pk = some pd)
    (hf' : alistFind? (buildPartMap d') pk = some pd') :
    ((buildSections pd).map (·.totalBudget)).sum =
    ((buildSections pd').map (·.totalBudget)).sum := by
  rw [partTotal_eq_keys hf, partTotal_eq_keys hf']
  have hpointwise : ∀ sk, entSum (entitiesAt (buildPartMap d) pk sk) =
      entSum (entitiesAt (buildPartMap d') pk sk) := by
    intro sk
    unfold entSum
    exact ((entitiesAt_perm h pk sk).map _).sum_eq
  have hwf := buildPartMap_wf d
  have hwf' := buildPartMap_wf d'
  have hnodup : (alistKeys pd.sections).Nodup :=
    hwf.2 (pk, pd) (mem_of_alistFind? hf)
  have hnodup' : (alistKeys pd'.sections).Nodup :=
    hwf'.2 (pk, pd') (mem_of_alistFind? hf')
  have hkeysperm : (alistKeys pd.sections).Perm (alistKeys pd'.sections) := by
    rw [List.perm_ext_iff_of_nodup hnodup hnodup']
    intro sk
    rw [mem_sectionKeys_iff hf, mem_sectionKeys_iff hf',
      entitiesAt_ne_nil_perm h]
  calc ((alistKeys pd.sections).map
        (fun sk => entSum (entitiesAt (buildPartMap d) pk sk))).sum
      = ((alistKeys pd.sections).map
        (fun sk => entSum (entitiesAt (buildPartMap d') pk sk))).sum := by
        apply congrArg List.sum
        exact List.map_congr_left (fun sk _ => hpointwise sk)
    _ = ((alistKeys pd'.sections).map
        (fun sk => entSum (entitiesAt (buildPartMap d') pk sk))).sum :=
        (hkeysperm.map _).sum_eq

/-- C6 (amended): the sequence of Part ids, with each part's
`totalBudget`, is independent of the input row order — for every
permutation of the row list the two trees have the same parts in the same
canonical order with the same totals.  (Section order within a part and
entity order within a section follow first-occurrence input order and may
differ, as the counterexample shows.) -/
theorem buildTree_parts_perm_invariant (d d' : List BudgetItem)
    (h : d.Perm d') :
    (buildTree d).map (fun p => (p.part, p.totalBudget)) =
    (buildTree d').map (fun p => (p.part, p.totalBudget)) := by
  unfold buildTree
  have hlen : d.length = d'.length := h.length_eq
  by_cases hd : d.length = 0
  · rw [if_pos hd, if_pos (hlen ▸ hd)]
  · rw [if_neg hd, if_neg (hlen ▸ hd), List.map_filterMap,
      List.map_filterMap]
    apply List.filterMap_congr
    intro pk _
    cases hf : alistFind? (buildPartMap d) pk with
    | none =>
      cases hf' : alistFind? (buildPartMap d') pk with
      | none => rfl
      | some pd' =>
        exfalso
        have h1 : ¬ ((alistFind? (buildPartMap d) pk).isSome = true) := by
          rw [hf]; simp
        apply h1
        rw [partExists_iff]
        obtain ⟨sk, hsk⟩ := (partExists_iff d' pk).mp (by rw [hf']; rfl)
        exact ⟨sk, (entitiesAt_ne_nil_perm h pk sk).mpr hsk⟩
    | some pd =>
      cases hf' : alistFind? (buildPartMap d') pk with
      | none =>
        exfalso
        have h1 : ¬ ((alistFind? (buildPartMap d') pk).isSome = true) := by
          rw [hf']; simp
        apply h1
        rw [partExists_iff]
        obtain ⟨sk, hsk⟩ := (partExists_iff d pk).mp (by rw [hf]; rfl)
        exact ⟨sk, (entitiesAt_ne_nil_perm h pk sk).mp hsk⟩
      | some pd' =>
        simp only
        have htoteq : ((buildSections pd).map (·.totalBudget)).sum =
            ((buildSections pd').map (·.totalBudget)).sum :=
          partTotal_perm h hf hf'
        rw [← htoteq]
        by_cases htot : 0 < ((buildSections pd).map (·.totalBudget)).sum
        · rw [if_pos htot, if_pos htot]
          simp
        · rw [if_neg htot, if_neg htot]

theorem buildTree_two_rows_eval :
    (UNBudget.buildTree
      [⟨"entity_total", "Part I", "PN", some "1", some "S1", some "E1",
          none, none, none, none, 5⟩,
        ⟨"entity_total", "Part I", "PN", some "2", some "S2", some "E2",
          none, none, none, none, 7⟩]).map
      (fun p => p.sections.map (·.sectionId)) = [["1", "2"]] := by
  simp only [buildTree, partTotalsMap, buildPartMap, addEntityRow, pushEntity,
    alistSet, alistSetIfAbsent, alistUpdate, alistFind?, mkEntityLeaf,
    buildSections, entSum, partOrder, swe, secKey, strOr, strOr2, tmpl,
    List.filterMap, List.filter, List.foldl, List.map, List.sum_cons,
    List.sum_nil]
  simp
  norm_num

theorem buildTree_two_rows_swapped_eval :
    (UNBudget.buildTree
      [⟨"entity_total", "Part I", "PN", some "2", some "S2", some "E2",
          none, none, none, none, 7⟩,
        ⟨"entity_total", "Part I", "PN", some "1", some "S1", some "E1",
          none, none, none, none, 5⟩]).map
      (fun p => p.sections.map (·.sectionId)) = [["2", "1"]] := by
  simp only [buildTree, partTotalsMap, buildPartMap, addEntityRow, pushEntity,
    alistSet, alistSetIfAbsent, alistUpdate, alistFind?, mkEntityLeaf,
    buildSections, entSum, partOrder, swe, secKey, strOr, strOr2, tmpl,
    List.filterMap, List.filter, List.foldl, List.map, List.sum_cons,
    List.sum_nil]
  simp
  norm_num

/-- C6 counterexample: two entity rows of the same Part but different
Sections, swapped.  The swap is a permutation of the input, yet the two
trees differ: the sections of Part I appear in first-occurrence input
order (`["1", "2"]` versus `["2", "1"]`), so the trees are not
identical. -/
theorem buildTree_input_order_counterexample :
    (List.Perm
      [(⟨"entity_total", "Part I", "PN", some "1", some "S1", some "E1",
          none, none, none, none, 5⟩ : BudgetItem),
        ⟨"entity_total", "Part I", "PN", some "2", some "S2", some "E2",
          none, none, none, none, 7⟩]
      [⟨"entity_total", "Part I", "PN", some "2", some "S2", some "E2",
          none, none, none, none, 7⟩,
        ⟨"entity_total", "Part I", "PN", some "1", some "S1", some "E1",
          none, none, none, none, 5⟩]) ∧
    UNBudget.buildTree
      [⟨"entity_total", "Part I", "PN", some "1", some "S1", some "E1",
          none, none, none, none, 5⟩,
        ⟨"entity_total", "Part I", "PN", some "2", some "S2", some "E2",
          none, none, none, none, 7⟩] ≠
    UNBudget.buildTree
      [⟨"entity_total", "Part I", "PN", some "2", some "S2", some "E2",
          none, none, none, none, 7⟩,
        ⟨"entity_total", "Part I", "PN", some "1", some "S1", some "E1",
          none, none, none, none, 5⟩] := by
  refine ⟨List.Perm.swap _ _ _, ?_⟩
  intro heq
  have h1 := buildTree_two_rows_eval
  rw [heq, buildTree_two_rows_swapped_eval] at h1
  exact absurd h1 (by decide)

/-- C6 (amended) witness: the invariance theorem applied to a concrete
two-row list and its swap. -/
theorem buildTree_parts_perm_invariant_witness :
    (List.Perm
      [(⟨"entity_total", "Part I", "PN", some "1", some "S1", some "E1",
          none, none, none, none, 5⟩ : BudgetItem),
        ⟨"entity_total", "Part I", "PN", some "2", some "S2", some "E2",
          none, none, none, none, 7⟩]
      [⟨"entity_total", "Part I", "PN", some "2", some "S2", some "E2",
          none, none, none, none, 7⟩,
        ⟨"entity_total", "Part I", "PN", some "1", some "S1", some "E1",
          none, none, none, none, 5⟩]) ∧
    (buildTree
      [⟨"entity_total", "Part I", "PN", some "1", some "S1", some "E1",
          none, none, none, none, 5⟩,
        ⟨"entity_total", "Part I", "PN", some "2", some "S2", some "E2",
          none, none, none, none, 7⟩]).map (fun p => (p.part, p.totalBudget)) =
    (buildTree
      [⟨"entity_total", "Part I", "PN", some "2", some "S2", some "E2",
          none, none, none, none, 7⟩,
        ⟨"entity_total", "Part I", "PN", some "1", some "S1", some "E1",
          none, none, none, none, 5⟩]).map (fun p => (p.part, p.totalBudget)) :=
  ⟨List.Perm.swap _ _ _,
    buildTree_parts_perm_invariant _ _ (List.Perm.swap _ _ _)⟩

/-- **C7**: the treemap render pass is NOT mutation-free.  A part with one
section whose entities arrive ordered ascending by budget ([1, 2]) comes
out of the layout pass with that section's `entities` array reordered to
[2, 1]: `section.entities.sort((a, b) => b.budget - a.budget)` sorts the
shared tree's array in place, so the tree after a render differs from the
tree that was built. -/
theorem treemap_layout_mutates_entities :
    let b : BudgetItem :=
      ⟨"entity_total", "Part I", "PN", some "1", some "Sec", some "A",
        none, none, none, none, 1⟩
    let e₁ : TreemapEntity := ⟨"i1", "A", "Part I", "PN", "1", "Sec", 1, b⟩
    let e₂ : TreemapEntity := ⟨"i2", "B", "Part I", "PN", "1", "Sec", 2, b⟩
    let s : TreemapSection := ⟨"1", "Sec", [e₁, e₂], 3⟩
    let p : TreemapPart := ⟨"Part I", "PN", [s], 3, "#4E79A7", 0, 0⟩
    treeAfterLayout [p] ≠ [p] ∧
      (treeAfterLayout [p]).map (fun q => q.sections.map (fun t => t.entities)) =
        [[[e₂, e₁]]] := by
  decide

/-- In a list that is strictly sorted, every element is at most the last
element (`getLastD`). -/
theorem mem_le_getLastD {l : List ℚ} (hp : l.Pairwise (· < ·)) :
    ∀ (d x : ℚ), x ∈ l → x ≤ l.getLastD d := by
  induction l with
  | nil => intro d x hx; simp at hx
  | cons a t ih =>
    intro d x hx
    rw [List.getLastD_cons]
    rcases List.mem_cons.mp hx with hxa | hx
    · rw [hxa]
      cases t with
      | nil => simp [List.getLastD]
      | cons b t' =>
        have hab : a < b :=
          (List.pairwise_cons.mp hp).1 b (List.mem_cons_self b t')
        exact le_trans hab.le
          (ih (List.pairwise_cons.mp hp).2 a b (List.mem_cons_self b t'))
    · exact ih (List.pairwise_cons.mp hp).2 a x hx

/-- The `getLastD` of a non-empty list is one of its elements. -/
theorem getLastD_mem : ∀ (l : List ℚ) (d : ℚ), l ≠ [] → l.getLastD d ∈ l
  | [a], _, _ => by simp [List.getLastD_cons, List.getLastD]
  | a :: b :: t, d, _ => by
    rw [List.getLastD_cons]
    exact List.mem_cons_of_mem a (getLastD_mem (b :: t) a (by simp))

/-- **C8**: for every non-negative `maxValue`, `generateTicks maxValue`
starts with 0, is strictly increasing, contains every candidate from
{100M, 250M, 500M, 750M, 1B} that is ≤ `maxValue`, appends exactly one
tick `⌈maxValue / 100M⌉ * 100M` precisely when the largest included value
is below `0.9 * maxValue`, and for `maxValue > 0` always contains a tick
≥ `0.9 * maxValue`; moreover `generateTicks 50_000_000 = [0, 100_000_000]`. -/
theorem generateTicks_spec (mv : ℚ) (h0 : 0 ≤ mv) :
    (generateTicks mv).head? = some 0 ∧
    (generateTicks mv).Pairwise (· < ·) ∧
    (∀ t ∈ ([100000000, 250000000, 500000000, 750000000,
        1000000000] : List ℚ), t ≤ mv → t ∈ generateTicks mv) ∧
    (((0 : ℚ) :: ([100000000, 250000000, 500000000, 750000000,
          1000000000] : List ℚ).filter (fun t => t ≤ mv)).getLastD 0 <
        mv * (9/10) →
      generateTicks mv =
        ((0 : ℚ) :: ([100000000, 250000000, 500000000, 750000000,
            1000000000] : List ℚ).filter (fun t => t ≤ mv)) ++
          [((⌈mv / 100000000⌉ : ℤ) : ℚ) * 100000000]) ∧
    (mv * (9/10) ≤
        ((0 : ℚ) :: ([100000000, 250000000, 500000000, 750000000,
          1000000000] : List ℚ).filter (fun t => t ≤ mv)).getLastD 0 →
      generateTicks mv =
        (0 : ℚ) :: ([100000000, 250000000, 500000000, 750000000,
          1000000000] : List ℚ).filter (fun t => t ≤ mv)) ∧
    (0 < mv → ∃ t ∈ generateTicks mv, mv * (9/10) ≤ t) ∧
    generateTicks 50000000 = [0, 100000000] := by
  set T : List ℚ :=
    [100000000, 250000000, 500000000, 750000000, 1000000000] with hT
  set F : List ℚ := T.filter (fun t => t ≤ mv) with hF
  set base : List ℚ := (0 : ℚ) :: F with hbase
  set c : ℚ := ((⌈mv / 100000000⌉ : ℤ) : ℚ) * 100000000 with hc
  have hTpos : ∀ t ∈ T, (0 : ℚ) < t := by rw [hT]; decide
  have hTpw : T.Pairwise (· < ·) := by rw [hT]; decide
  have hFT : ∀ x ∈ F, x ∈ T := fun x hx => (List.mem_filter.mp hx).1
  have hFle : ∀ x ∈ F, x ≤ mv := fun x hx => by
    have := (List.mem_filter.mp hx).2; simpa using this
  have hFpw : F.Pairwise (· < ·) :=
    List.Pairwise.sublist (List.filter_sublist T) hTpw
  have hbpw : base.Pairwise (· < ·) :=
    List.pairwise_cons.mpr ⟨fun x hx => hTpos x (hFT x hx), hFpw⟩
  have hlast_le : base.getLastD 0 ≤ mv := by
    rcases List.mem_cons.mp (getLastD_mem base 0 (by simp [hbase])) with h | h
    · rw [h]; exact h0
    · exact hFle _ h
  have hmvc : mv ≤ c := by
    have h1 : mv / 100000000 ≤ ((⌈mv / 100000000⌉ : ℤ) : ℚ) :=
      Int.le_ceil _
    have h2 : mv / 100000000 * 100000000 ≤ c :=
      mul_le_mul_of_nonneg_right h1 (by norm_num)
    calc mv = mv / 100000000 * 100000000 := by norm_num
    _ ≤ c := h2
  have h9mv : mv * (9/10) ≤ mv := by
    calc mv * (9/10) ≤ mv * 1 :=
          mul_le_mul_of_nonneg_left (by norm_num) h0
    _ = mv := mul_one mv
  have hmemF : ∀ t ∈ T, t ≤ mv → t ∈ F := fun t ht hle =>
    List.mem_filter.mpr ⟨ht, by simpa using hle⟩
  have heval : generateTicks 50000000 = [0, 100000000] := by
    have hc5 : ⌈(50000000 : ℚ) / 100000000⌉ = (1 : ℤ) := by
      rw [Int.ceil_eq_iff]
      norm_num
    have hc6 : ⌈(1 : ℚ) / 2⌉ = (1 : ℤ) := by
      rw [Int.ceil_eq_iff]
      norm_num
    norm_num [generateTicks, List.filter, hc5, hc6]
  by_cases hif : base.getLastD 0 < mv * (9/10)
  · have heq : generateTicks mv = base ++ [c] := by
      simp only [generateTicks]
      rw [← hT, ← hF, ← hbase, ← hc, if_pos hif]
    have hltc : ∀ x ∈ base, x < c := fun x hx =>
      lt_of_le_of_lt (mem_le_getLastD hbpw 0 x hx)
        (lt_of_lt_of_le hif (le_trans h9mv hmvc))
    refine ⟨?_, ?_, ?_, ?_, ?_, ?_, heval⟩
    · rw [heq, hbase]; rfl
    · rw [heq]
      refine List.pairwise_append.mpr ⟨hbpw, List.pairwise_singleton _ _, ?_⟩
      intro x hx y hy
      rw [List.mem_singleton.mp hy]
      exact hltc x hx
    · intro t ht hle
      rw [heq]
      exact List.mem_append_left _ (List.mem_cons_of_mem _ (hmemF t ht hle))
    · intro _; exact heq
    · intro habs; exact absurd hif (not_lt.mpr habs)
    · intro _
      exact ⟨c, by rw [heq]; exact List.mem_append_right _ (List.mem_singleton_self c),
        le_trans h9mv hmvc⟩
  · have heq : generateTicks mv = base := by
      simp only [generateTicks]
      rw [← hT, ← hF, ← hbase, ← hc, if_neg hif]
    refine ⟨?_, ?_, ?_, ?_, ?_, ?_, heval⟩
    · rw [heq, hbase]; rfl
    · rw [heq]; exact hbpw
    · intro t ht hle
      rw [heq]
      exact List.mem_cons_of_mem _ (hmemF t ht hle)
    · intro habs; exact absurd habs hif
    · intro _; exact heq
    · intro _
      exact ⟨base.getLastD 0, by rw [heq]; exact getLastD_mem base 0 (by simp [hbase]),
        not_lt.mp hif⟩

/-- Witness for C8 at `maxValue = 50_000_000`. -/
theorem generateTicks_spec_witness :
    (generateTicks 50000000).head? = some 0 ∧
      (generateTicks 50000000).Pairwise (· < ·) :=
  ⟨(generateTicks_spec 50000000 (by norm_num)).1,
    (generateTicks_spec 50000000 (by norm_num)).2.1⟩

/-- `filter` distributes over `flatMap`. -/
theorem lfilter_flatMap {α β : Type} (l : List α) (f : α → List β)
    (p : β → Bool) :
    (l.flatMap f).filter p = l.flatMap (fun a => (f a).filter p) := by
  induction l with
  | nil => rfl
  | cons a t ih =>
    rw [List.flatMap_cons, List.filter_append, ih, List.flatMap_cons]

/-- `map` distributes over `flatMap`. -/
theorem lmap_flatMap {α β γ : Type} (l : List α) (f : α → List β)
    (g : β → γ) :
    (l.flatMap f).map g = l.flatMap (fun a => (f a).map g) := by
  induction l with
  | nil => rfl
  | cons a t ih =>
    rw [List.flatMap_cons, List.map_append, ih, List.flatMap_cons]

/-- Congruence for `flatMap`. -/
theorem lflatMap_congr {α β : Type} {l : List α} {f g : α → List β}
    (h : ∀ a ∈ l, f a = g a) : l.flatMap f = l.flatMap g := by
  induction l with
  | nil => rfl
  | cons a t ih =>
    rw [List.flatMap_cons, List.flatMap_cons, h a (List.mem_cons_self a t),
      ih (fun b hb => h b (List.mem_cons_of_mem a hb))]

/-- A `flatMap` all of whose pieces are empty is empty. -/
theorem lflatMap_nil {α β : Type} :
    ∀ (l : List α) (f : α → List β),
      (∀ a ∈ l, f a = []) → l.flatMap f = []
  | [], _, _ => rfl
  | a :: t, f, h => by
    rw [List.flatMap_cons, h a (List.mem_cons_self a t), List.nil_append]
    exact lflatMap_nil t f (fun b hb => h b (List.mem_cons_of_mem a hb))

/-- Over a duplicate-free index list, a `flatMap` whose pieces vanish away
from one index `k` reduces to the piece at `k` (when present). -/
theorem lflatMap_eq_single {α β : Type} [DecidableEq α] :
    ∀ (l : List α), l.Nodup → ∀ (g : α → List β) (k : α),
      (∀ a, a ≠ k → g a = []) →
      l.flatMap g = if k ∈ l then g k else []
  | [], _, g, k, _ => by simp
  | a :: t, hnd, g, k, h => by
    rw [List.flatMap_cons]
    by_cases hak : a = k
    · subst hak
      have hat : a ∉ t := (List.nodup_cons.mp hnd).1
      have ht : t.flatMap g = [] :=
        lflatMap_nil t g (fun b hb => h b (fun hbk => hat (hbk ▸ hb)))
      rw [ht, List.append_nil, if_pos (List.mem_cons_self a t)]
    · rw [h a hak, List.nil_append,
        lflatMap_eq_single t (List.nodup_cons.mp hnd).2 g k h]
      by_cases hkt : k ∈ t
      · rw [if_pos hkt, if_pos (List.mem_cons_of_mem a hkt)]
      · rw [if_neg hkt, if_neg (fun hk => by
          rcases List.mem_cons.mp hk with hk | hk
          · exact hak hk.symm
          · exact hkt hk)]

/-- `flatMap` of conditioned singletons is `filter`. -/
theorem lflatMap_ite_singleton {α : Type} (l : List α) (p : α → Bool) :
    l.flatMap (fun a => if p a then [a] else []) = l.filter p := by
  induction l with
  | nil => rfl
  | cons a t ih =>
    rw [List.flatMap_cons, ih, List.filter_cons]
    cases hp : p a <;> simp [hp]

/-- `flatMap` of singletons is `map`. -/
theorem lflatMap_singleton_map {α β : Type} (l : List α) (g : α → β) :
    l.flatMap (fun a => [g a]) = l.map g := by
  induction l with
  | nil => rfl
  | cons a t ih => rw [List.flatMap_cons, ih]; rfl

/-- Every row of a section block carries the part key it was pushed
under. -/
theorem sectionBlock_partKey (m : LollipopMaps) (e : List String)
    (pk : String) (sd : BudgetItem) (r : LollipopRow)
    (hr : r ∈ sectionBlock m e pk sd) : r.partKey = pk := by
  simp only [sectionBlock] at hr
  rcases List.mem_cons.mp hr with hr | hr
  · rw [hr]; rfl
  · by_cases hc : (pk ++ "-" ++ tmpl sd.Section) ∈ e
    · rw [if_pos hc] at hr
      obtain ⟨eb, _, heb⟩ := List.mem_map.mp hr
      rw [← heb]; rfl
    · rw [if_neg hc] at hr
      simp at hr

/-- Every row of a section block sits at level 1 or level 2. -/
theorem sectionBlock_level (m : LollipopMaps) (e : List String)
    (pk : String) (sd : BudgetItem) (r : LollipopRow)
    (hr : r ∈ sectionBlock m e pk sd) : r.level = 1 ∨ r.level = 2 := by
  simp only [sectionBlock] at hr
  rcases List.mem_cons.mp hr with hr | hr
  · left; rw [hr]; rfl
  · right
    by_cases hc : (pk ++ "-" ++ tmpl sd.Section) ∈ e
    · rw [if_pos hc] at hr
      obtain ⟨eb, _, heb⟩ := List.mem_map.mp hr
      rw [← heb]; rfl
    · rw [if_neg hc] at hr
      simp at hr

/-- Every row of a part block carries that part's key. -/
theorem partBlock_partKey (m : LollipopMaps) (e : List String)
    (pk : String) (r : LollipopRow) (hr : r ∈ partBlock m e pk) :
    r.partKey = pk := by
  cases hf : alistFind? m.partTotals pk with
  | none => simp only [partBlock, hf] at hr; simp at hr
  | some b =>
    simp only [partBlock, hf] at hr
    rcases List.mem_cons.mp hr with hr | hr
    · rw [hr]; rfl
    · by_cases he : pk ∈ e
      · rw [if_pos he] at hr
        obtain ⟨sd, _, hsd⟩ := List.mem_flatMap.mp hr
        exact sectionBlock_partKey m e pk sd r hsd
      · rw [if_neg he] at hr
        simp at hr

/-- A section block contributes no level-0 rows. -/
theorem sectionBlock_filter_level0 (m : LollipopMaps) (e : List String)
    (pk : String) (sd : BudgetItem) :
    (sectionBlock m e pk sd).filter (fun r => r.level == 0) = [] := by
  apply List.filter_eq_nil_iff.mpr
  intro r hr
  rcases sectionBlock_level m e pk sd r hr with h | h <;> simp [h]

/-- The level-1 rows of a section block: exactly the section row. -/
theorem sectionBlock_filter_level1 (m : LollipopMaps) (e : List String)
    (pk : String) (sd : BudgetItem) :
    (sectionBlock m e pk sd).filter (fun r => r.level == 1) =
      [secRowOf pk sd
        (!((alistFind? m.entities (pk ++ "-" ++ tmpl sd.Section)).getD
          []).isEmpty)] := by
  simp only [sectionBlock]
  rw [List.filter_cons, if_pos (by rfl)]
  have h2 : ((if (pk ++ "-" ++ tmpl sd.Section) ∈ e then
      (sortEntDesc ((alistFind? m.entities
        (pk ++ "-" ++ tmpl sd.Section)).getD [])).map
        (entRowOf pk (pk ++ "-" ++ tmpl sd.Section) sd)
    else []) : List LollipopRow).filter (fun r => r.level == 1) = [] := by
    apply List.filter_eq_nil_iff.mpr
    intro r hr
    by_cases hc : (pk ++ "-" ++ tmpl sd.Section) ∈ e
    · rw [if_pos hc] at hr
      obtain ⟨eb, _, heb⟩ := List.mem_map.mp hr
      rw [← heb]
      simp [entRowOf]
    · rw [if_neg hc] at hr
      simp at hr
  rw [h2]

/-- The level-2 rows of a section block: the entity rows, when the
section's composite id is expanded. -/
theorem sectionBlock_filter_level2 (m : LollipopMaps) (e : List String)
    (pk : String) (sd : BudgetItem) :
    (sectionBlock m e pk sd).filter (fun r => r.level == 2) =
      (if (pk ++ "-" ++ tmpl sd.Section) ∈ e then
        (sortEntDesc ((alistFind? m.entities
          (pk ++ "-" ++ tmpl sd.Section)).getD [])).map
          (entRowOf pk (pk ++ "-" ++ tmpl sd.Section) sd)
      else []) := by
  simp only [sectionBlock]
  rw [List.filter_cons, if_neg (by simp [secRowOf])]
  by_cases hc : (pk ++ "-" ++ tmpl sd.Section) ∈ e
  · rw [if_pos hc]
    apply List.filter_eq_self.mpr
    intro r hr
    obtain ⟨eb, _, heb⟩ := List.mem_map.mp hr
    rw [← heb]
    rfl
  · rw [if_neg hc]
    rfl

/-- The level-0 rows of a part block: the part row, when the part has a
`part_total` entry. -/
theorem partBlock_filter_level0 (m : LollipopMaps) (e : List String)
    (pk : String) :
    (partBlock m e pk).filter (fun r => r.level == 0) =
      (match alistFind? m.partTotals pk with
       | none => ([] : List LollipopRow)
       | some b => [partRowOf m pk b]) := by
  cases hf : alistFind? m.partTotals pk with
  | none => simp [partBlock, hf]
  | some b =>
    simp only [partBlock, hf]
    rw [List.filter_cons, if_pos (by rfl)]
    have h2 : ((if pk ∈ e then
        (sectionsForPart m pk).flatMap (sectionBlock m e pk)
      else []) : List LollipopRow).filter (fun r => r.level == 0) = [] := by
      by_cases he : pk ∈ e
      · rw [if_pos he, lfilter_flatMap]
        exact lflatMap_nil _ _ (fun sd _ => sectionBlock_filter_level0 m e pk sd)
      · rw [if_neg he]; rfl
    rw [h2]

/-- The level-1 rows of a part block: the sorted section rows, when the
part exists and is expanded. -/
theorem partBlock_filter_level1 (m : LollipopMaps) (e : List String)
    (pk : String) :
    (partBlock m e pk).filter (fun r => r.level == 1) =
      (match alistFind? m.partTotals pk with
       | none => ([] : List LollipopRow)
       | some _ => if pk ∈ e then secRowsOf m pk else []) := by
  cases hf : alistFind? m.partTotals pk with
  | none => simp [partBlock, hf]
  | some b =>
    simp only [partBlock, hf]
    rw [List.filter_cons, if_neg (by simp [partRowOf])]
    by_cases he : pk ∈ e
    · rw [if_pos he, if_pos he, lfilter_flatMap,
        lflatMap_congr (fun sd _ => sectionBlock_filter_level1 m e pk sd),
        lflatMap_singleton_map]
      rfl
    · rw [if_neg he, if_neg he]
      rfl

/-- The level-2 rows of a part block: the gated entity rows, when the
part exists and is expanded. -/
theorem partBlock_filter_level2 (m : LollipopMaps) (e : List String)
    (pk : String) :
    (partBlock m e pk).filter (fun r => r.level == 2) =
      (match alistFind? m.partTotals pk with
       | none => ([] : List LollipopRow)
       | some _ => if pk ∈ e then entRowsOf m e pk else []) := by
  cases hf : alistFind? m.partTotals pk with
  | none => simp [partBlock, hf]
  | some b =>
    simp only [partBlock, hf]
    rw [List.filter_cons, if_neg (by simp [partRowOf])]
    by_cases he : pk ∈ e
    · rw [if_pos he, if_pos he, lfilter_flatMap,
        lflatMap_congr (fun sd _ => sectionBlock_filter_level2 m e pk sd)]
      rfl
    · rw [if_neg he, if_neg he]
      rfl

/-- Filtering a part block by level and part key: nothing unless the keys
agree, in which case the key test is redundant. -/
theorem partBlock_filter_level_partKey (m : LollipopMaps) (e : List String)
    (L : Nat) (pk pk' : String) :
    (partBlock m e pk').filter (fun r => r.level == L && r.partKey == pk) =
      if pk' = pk then (partBlock m e pk').filter (fun r => r.level == L)
      else [] := by
  by_cases h : pk' = pk
  · subst h
    rw [if_pos rfl]
    apply List.filter_congr
    intro r hr
    simp [partBlock_partKey m e pk' r hr]
  · rw [if_neg h]
    apply List.filter_eq_nil_iff.mpr
    intro r hr
    simp [partBlock_partKey m e pk' r hr, h]

/-- The canonical part order has no duplicate keys. -/
theorem partOrder_nodup : partOrder.Nodup := by decide

/-- Inserting into a list sorted ascending by section key keeps it
sorted. -/
theorem insertSecAsc_sorted (b : BudgetItem) (l : List BudgetItem)
    (h : l.Chain' (fun x y => lsecKey x ≤ lsecKey y)) :
    (insertSecAsc b l).Chain' (fun x y => lsecKey x ≤ lsecKey y) := by
  induction l with
  | nil => simp [insertSecAsc]
  | cons a t ih =>
    simp only [insertSecAsc]
    by_cases hc : lsecKey b < lsecKey a
    · rw [if_pos hc]
      exact List.chain'_cons.mpr ⟨hc.le, h⟩
    · rw [if_neg hc]
      apply List.chain'_cons'.mpr
      refine ⟨?_, ih (List.Chain'.tail h)⟩
      intro y hy
      cases t with
      | nil =>
        simp [insertSecAsc] at hy
        rw [← hy]
        exact not_lt.mp hc
      | cons c t' =>
        simp only [insertSecAsc] at hy
        by_cases h2 : lsecKey b < lsecKey c
        · rw [if_pos h2] at hy
          simp at hy
          rw [← hy]
          exact not_lt.mp hc
        · rw [if_neg h2] at hy
          simp at hy
          rw [← hy]
          exact (List.chain'_cons.mp h).1

/-- The section sort returns a list sorted ascending by section key. -/
theorem sortSections_sorted_aux :
    ∀ (l acc : List BudgetItem),
      acc.Chain' (fun x y => lsecKey x ≤ lsecKey y) →
      (l.foldl (fun acc b => insertSecAsc b acc) acc).Chain'
        (fun x y => lsecKey x ≤ lsecKey y)
  | [], _, h => h
  | b :: t, acc, h => by
    rw [List.foldl_cons]
    exact sortSections_sorted_aux t _ (insertSecAsc_sorted b acc h)

/-- `sortSections` output is sorted ascending by section key. -/
theorem sortSections_sorted (l : List BudgetItem) :
    (sortSections l).Chain' (fun x y => lsecKey x ≤ lsecKey y) :=
  sortSections_sorted_aux l [] List.chain'_nil

/-- Inserting into a list sorted descending by `revised2026` keeps it
sorted. -/
theorem insertEntDesc_sorted (b : BudgetItem) (l : List BudgetItem)
    (h : l.Chain' (fun x y => y.revised2026 ≤ x.revised2026)) :
    (insertEntDesc b l).Chain'
      (fun x y => y.revised2026 ≤ x.revised2026) := by
  induction l with
  | nil => simp [insertEntDesc]
  | cons a t ih =>
    simp only [insertEntDesc]
    by_cases hc : a.revised2026 < b.revised2026
    · rw [if_pos hc]
      exact List.chain'_cons.mpr ⟨hc.le, h⟩
    · rw [if_neg hc]
      apply List.chain'_cons'.mpr
      refine ⟨?_, ih (List.Chain'.tail h)⟩
      intro y hy
      cases t with
      | nil =>
        simp [insertEntDesc] at hy
        rw [← hy]
        exact not_lt.mp hc
      | cons c t' =>
        simp only [insertEntDesc] at hy
        by_cases h2 : c.revised2026 < b.revised2026
        · rw [if_pos h2] at hy
          simp at hy
          rw [← hy]
          exact not_lt.mp hc
        · rw [if_neg h2] at hy
          simp at hy
          rw [← hy]
          exact (List.chain'_cons.mp h).1

/-- The entity sort returns a list sorted descending by `revised2026`. -/
theorem sortEntDesc_sorted_aux :
    ∀ (l acc : List BudgetItem),
      acc.Chain' (fun x y => y.revised2026 ≤ x.revised2026) →
      (l.foldl (fun acc b => insertEntDesc b acc) acc).Chain'
        (fun x y => y.revised2026 ≤ x.revised2026)
  | [], _, h => h
  | b :: t, acc, h => by
    rw [List.foldl_cons]
    exact sortEntDesc_sorted_aux t _ (insertEntDesc_sorted b acc h)

/-- `sortEntDesc` output is sorted descending by `revised2026`. -/
theorem sortEntDesc_sorted (l : List BudgetItem) :
    (sortEntDesc l).Chain' (fun x y => y.revised2026 ≤ x.revised2026) :=
  sortEntDesc_sorted_aux l [] List.chain'_nil

/-- **C9 counterexample**: the literal "entity rows appear iff the
section's composite id is in the expand set" is false: with a part-total,
section-total and entity-total row for `Part I` section `1` and expand
set `{"Part I-1"}` — containing the composite id but not the part id —
no level-2 row appears, while with `{"Part I", "Part I-1"}` the entity
row does appear.  Entity rows are additionally gated on their part being
expanded. -/
theorem lrows_entity_gating_counterexample :
    let bp : BudgetItem :=
      ⟨"part_total", "Part I", "PN", none, none, none, none, none,
        none, none, 10⟩
    let bs : BudgetItem :=
      ⟨"section_total", "Part I", "PN", some "1", some "SN", none, none,
        none, none, none, 10⟩
    let be : BudgetItem :=
      ⟨"entity_total", "Part I", "PN", some "1", some "SN", some "E1",
        none, none, none, none, 10⟩
    ("Part I-1" ∈ (["Part I-1"] : List String)) ∧
      (lrows [bp, bs, be] ["Part I-1"]).filter (fun r => r.level == 2) =
        [] ∧
      (lrows [bp, bs, be] ["Part I", "Part I-1"]).filter
        (fun r => r.level == 2) ≠ [] := by
  decide

/-- **C9**: rows are built by walking `PART_ORDER`: (1) the level-0 row
ids are exactly the canonical part keys having a `part_total` entry, in
canonical order; (2) a part's level-1 rows are its sorted section rows
exactly when the part is canonical, present and expanded, else nothing;
(3) the level-1 numerals of each part are ascending (sections sorted
lexicographically by section identifier); (4) a part's level-2 rows are
the per-section entity rows gated on the section's composite id being
expanded, exactly when the part is canonical, present and expanded;
(5) each section's entity rows are sorted descending by `revised2026`. -/
theorem lrows_spec (data : List BudgetItem) (exp : List String) :
    (((lrows data exp).filter (fun r => r.level == 0)).map
        (fun r => r.id) =
      partOrder.filter
        (fun pk => (alistFind? (lmaps data).partTotals pk).isSome)) ∧
    (∀ pk : String,
      (lrows data exp).filter
          (fun r => r.level == 1 && r.partKey == pk) =
        if pk ∈ partOrder ∧
            (alistFind? (lmaps data).partTotals pk).isSome = true ∧
            pk ∈ exp then
          secRowsOf (lmaps data) pk
        else []) ∧
    (∀ pk : String,
      List.Chain' (· ≤ ·)
        (((lrows data exp).filter
          (fun r => r.level == 1 && r.partKey == pk)).map
          (fun r => r.numeral))) ∧
    (∀ pk : String,
      (lrows data exp).filter
          (fun r => r.level == 2 && r.partKey == pk) =
        if pk ∈ partOrder ∧
            (alistFind? (lmaps data).partTotals pk).isSome = true ∧
            pk ∈ exp then
          entRowsOf (lmaps data) exp pk
        else []) ∧
    (∀ (pk : String) (sd : BudgetItem),
      List.Chain' (fun a b => b ≤ a)
        ((sortEntDesc ((alistFind? (lmaps data).entities
            (pk ++ "-" ++ tmpl sd.Section)).getD [])).map
          (fun b => b.revised2026))) := by
  have h2 : ∀ pk : String,
      (lrows data exp).filter
          (fun r => r.level == 1 && r.partKey == pk) =
        if pk ∈ partOrder ∧
            (alistFind? (lmaps data).partTotals pk).isSome = true ∧
            pk ∈ exp then
          secRowsOf (lmaps data) pk
        else [] := by
    intro pk
    rw [lrows, lfilter_flatMap,
      lflatMap_congr
        (fun pk' _ => partBlock_filter_level_partKey (lmaps data) exp 1 pk pk'),
      lflatMap_eq_single partOrder partOrder_nodup _ pk
        (fun a ha => if_neg ha)]
    by_cases hp : pk ∈ partOrder
    · rw [if_pos hp, if_pos rfl, partBlock_filter_level1]
      cases hf : alistFind? (lmaps data).partTotals pk with
      | none => simp [hp, hf]
      | some b =>
        by_cases he : pk ∈ exp
        · simp [hp, hf, he]
        · simp [hp, hf, he]
    · rw [if_neg hp]
      simp [hp]
  refine ⟨?_, h2, ?_, ?_, ?_⟩
  · have hper : ∀ pk : String,
        ((partBlock (lmaps data) exp pk).filter
            (fun r => r.level == 0)).map (fun r => r.id) =
          if (alistFind? (lmaps data).partTotals pk).isSome then [pk]
          else [] := by
      intro pk
      rw [partBlock_filter_level0]
      cases hf : alistFind? (lmaps data).partTotals pk with
      | none => rfl
      | some b => rfl
    rw [lrows, lfilter_flatMap, lmap_flatMap,
      lflatMap_congr (fun pk _ => hper pk), lflatMap_ite_singleton]
  · intro pk
    rw [h2 pk]
    by_cases hcond : pk ∈ partOrder ∧
        (alistFind? (lmaps data).partTotals pk).isSome = true ∧ pk ∈ exp
    · rw [if_pos hcond]
      have hmapeq : (secRowsOf (lmaps data) pk).map (fun r => r.numeral) =
          (sectionsForPart (lmaps data) pk).map lsecKey := by
        simp only [secRowsOf, List.map_map]
        rfl
      rw [hmapeq, List.chain'_map]
      exact sortSections_sorted_aux _ [] List.chain'_nil
    · rw [if_neg hcond]
      simp
  · intro pk
    rw [lrows, lfilter_flatMap,
      lflatMap_congr
        (fun pk' _ => partBlock_filter_level_partKey (lmaps data) exp 2 pk pk'),
      lflatMap_eq_single partOrder partOrder_nodup _ pk
        (fun a ha => if_neg ha)]
    by_cases hp : pk ∈ partOrder
    · rw [if_pos hp, if_pos rfl, partBlock_filter_level2]
      cases hf : alistFind? (lmaps data).partTotals pk with
      | none => simp [hp, hf]
      | some b =>
        by_cases he : pk ∈ exp
        · simp [hp, hf, he]
        · simp [hp, hf, he]
    · rw [if_neg hp]
      simp [hp]
  · intro pk sd
    rw [List.chain'_map]
    exact sortEntDesc_sorted _

end UNBudget
